import Mathlib

/-!
Verification of the update-reconciliation subsystem of the
`automation_financial_statements` repository.

The development shallowly embeds, over `List Char` strings and `ℚ` numbers:

* `src/utils/value_parser.py` — `parse_numeric_value`, including a faithful
  model of the Python regex `[-+]?[\d,]*\.?\d+` under `re.search`/`re.findall`
  semantics (leftmost scan, greedy classes with backtracking), Python
  `str.split(sep)`, and the segment-scanning unit search.
* `src/processors/excel_updater.py` — `_validate_update`, `apply_updates`
  (including the handling-fee accumulation special case keyed on
  `(row 81, column 'E')`, the categorical section scan, and the date-keyed
  row lookup), `_get_column_index` and `_normalize_product_name`.
* `src/processors/invoice_processor.py` — `_process_guotong`.

Numbers are modelled as exact rationals (the Python code uses binary floats;
none of the verified properties depends on floating-point rounding error).
Python's Unicode `\d` is modelled as the ASCII digits, and `str(float)`
rendering of numeric cells is approximated by exact decimal rendering; no
verified property exercises those corners.  Workbook cells form an unbounded
grid (`String → Int → Int → CellValue`); openpyxl index-out-of-range errors on
exotic column references are not modelled, and every instruction exercised
below uses ordinary `A`–`Z` column labels.  Exceptions are modelled as an
error component that carries the partially mutated state, matching Python's
in-place mutation of the open workbook.
-/

/-! ## Characters and basic string operations (Python semantics) -/

/-- The character class `[\d,]` of the numeric regex: an ASCII digit or a
thousands-separator comma. -/
def isDC (c : Char) : Bool := c.isDigit || c = ','

/-- `str.strip()`: remove whitespace from both ends. -/
def pyStrip (l : List Char) : List Char :=
  ((l.dropWhile Char.isWhitespace).reverse.dropWhile Char.isWhitespace).reverse

/-- Drop the trailing run of commas (used by the backtracking model of
`[\d,]*` when `\.?\d+` cannot be matched after the greedy run). -/
def dropTrailingCommas (l : List Char) : List Char :=
  (l.reverse.dropWhile (fun c => c = ',')).reverse

/-- The trailing run of commas removed by `dropTrailingCommas`. -/
def trailingCommas (l : List Char) : List Char :=
  (l.reverse.takeWhile (fun c => c = ',')).reverse

/-- Does `p` occur as a prefix of `l`?  (Self-contained `isPrefixOf`.) -/
def begWith : List Char → List Char → Bool
  | [], _ => true
  | _ :: _, [] => false
  | a :: as, b :: bs => a = b && begWith as bs

/-- Index of the first occurrence of `sep` in `l` (Python `str.find`). -/
def findSub (sep : List Char) : List Char → Option Nat
  | [] => if sep = [] then some 0 else Option.none
  | l@(_ :: t) =>
    if begWith sep l then some 0 else (findSub sep t).map (· + 1)

/-- Fuelled worker for `splitSep`. -/
def splitGo (sep : List Char) : Nat → List Char → List (List Char)
  | 0, l => [l]
  | fuel + 1, l =>
    match findSub sep l with
    | Option.none => [l]
    | some n => l.take n :: splitGo sep fuel (l.drop (n + sep.length))

/-- Python `str.split(sep)` for a non-empty separator: split on every
leftmost non-overlapping occurrence. -/
def splitSep (sep l : List Char) : List (List Char) :=
  splitGo sep l.length l

/-! ## The regex `[-+]?[\d,]*\.?\d+` -/

/-- Match the unsigned part `[\d,]*\.?\d+` at the head of `l`, returning the
matched token and the remaining input.  This is the deterministic residue of
the Python engine's greedy matching with backtracking:

* the class run `[\d,]*` is taken greedily;
* if a `.` immediately followed by a digit comes next, the match is
  `run ++ '.' ++ digits`;
* otherwise the engine backtracks the class run to its last digit (dropping
  any trailing commas); if the run contains no digit the match fails. -/
def matchUnsigned (l : List Char) : Option (List Char × List Char) :=
  let r := l.takeWhile isDC
  let rest := l.dropWhile isDC
  match rest with
  | '.' :: rest2 =>
    let d := rest2.takeWhile Char.isDigit
    if d = [] then
      let r2 := dropTrailingCommas r
      if r2 = [] then Option.none else some (r2, trailingCommas r ++ rest)
    else some (r ++ '.' :: d, rest2.dropWhile Char.isDigit)
  | _ =>
    let r2 := dropTrailingCommas r
    if r2 = [] then Option.none else some (r2, trailingCommas r ++ rest)

/-- Match the full pattern `[-+]?[\d,]?\.?\d+`-shaped token at the head of
`l`.  A sign is consumed only when the unsigned part matches right after it
(otherwise the position fails, as in the Python engine). -/
def matchAt (l : List Char) : Option (List Char × List Char) :=
  match l with
  | [] => Option.none
  | c :: rest =>
    if c = '-' ∨ c = '+' then
      match matchUnsigned rest with
      | some (m, r) => some (c :: m, r)
      | Option.none => Option.none
    else matchUnsigned l

/-- Fuelled worker for `findall`: scan left to right, at each position try a
match; on success emit it and continue after it (non-overlapping). -/
def findallGo : Nat → List Char → List (List Char)
  | 0, _ => []
  | _ + 1, [] => []
  | fuel + 1, l@(_ :: t) =>
    match matchAt l with
    | some (m, r) => m :: findallGo fuel r
    | Option.none => findallGo fuel t

/-- `re.findall(r'[-+]?[\d,]*\.?\d+', s)`. -/
def findall (l : List Char) : List (List Char) := findallGo l.length l

/-! ## Converting a matched token to a number (`float(tok.replace(",",""))`) -/

/-- Numeric value of a digit string, most significant first. -/
def digitsVal (l : List Char) : Nat :=
  l.foldl (fun n c => 10 * n + (c.toNat - 48)) 0

/-- Value of an unsigned comma-free token `digits* ['.' digits*]`. -/
def coreVal (l : List Char) : ℚ :=
  let ip := l.takeWhile Char.isDigit
  let rest := l.dropWhile Char.isDigit
  let fp := match rest with
    | '.' :: f => f.takeWhile Char.isDigit
    | _ => []
  (digitsVal ip : ℚ) + (digitsVal fp : ℚ) / ((10 : ℚ) ^ fp.length)

/-- `float(tok.replace(",", ""))` for a token matched by the numeric regex. -/
def tokenToRat (m : List Char) : ℚ :=
  match m.filter (fun c => c ≠ ',') with
  | '-' :: r => - coreVal r
  | '+' :: r => coreVal r
  | r => coreVal r

/-! ## `parse_numeric_value` -/

/-- A dynamically-typed Python value as far as `parse_numeric_value` can
observe it: a number (`int`/`float`), a string, `None`, or any other object
(e.g. a dict), which fails both `isinstance` checks. -/
inductive PyValue where
  | vNum (q : ℚ)
  | vStr (s : List Char)
  | vNone
  | vDict
deriving DecidableEq

/-- The `for i in range(len(segments)-1)` loop of the unit branch: for each
adjacent pair, return the last number of the current segment if any, else the
first number of the next segment if any, else continue. -/
def segScan : List (List Char) → Option ℚ
  | cur :: next :: rest =>
    match (findall cur).getLast? with
    | some m => some (tokenToRat m)
    | Option.none =>
      match (findall next).head? with
      | some m => some (tokenToRat m)
      | Option.none => segScan (next :: rest)
  | _ => Option.none

/-- `parse_numeric_value(value, unit, default_value)` from
`src/utils/value_parser.py`.  Numbers are returned as-is; strings are
stripped, searched near the unit when one is supplied (falling through to the
general search when no segment near a unit occurrence contains a number), and
otherwise searched for the first numeric token after removing spaces and the
currency glyphs `¥`/`$`; anything else yields the default.  (An empty-string
unit is falsy in Python, so it disables the unit branch.) -/
def parse_numeric_value (value : PyValue) (unit : Option (List Char))
    (default_value : ℚ) : ℚ :=
  match value with
  | .vNum q => q
  | .vNone => default_value
  | .vDict => default_value
  | .vStr s =>
    let cleaned := pyStrip s
    let viaUnit : Option ℚ :=
      match unit with
      | some u => if u = [] then Option.none else segScan (splitSep u cleaned)
      | Option.none => Option.none
    match viaUnit with
    | some q => q
    | Option.none =>
      let cleaned2 := cleaned.filter (fun c => c ≠ ' ' && c ≠ '¥' && c ≠ '$')
      match (findall cleaned2).head? with
      | some m => tokenToRat m
      | Option.none => default_value

/-! ## Workbook model (`src/processors/excel_updater.py`) -/

/-- The value of a spreadsheet cell as observed by the updater: empty
(`None`), a string, or a number. -/
inductive CellValue where
  | none
  | str (s : List Char)
  | num (q : ℚ)
deriving DecidableEq

/-- An openpyxl workbook: its sheet names, each sheet's `max_row`, and an
unbounded grid of cells addressed by sheet name, 1-based row and 1-based
column. -/
structure Workbook where
  sheetnames : List String
  maxRow : String → Nat
  cells : String → Int → Int → CellValue

/-- Write one cell. -/
def setCell (wb : Workbook) (s : String) (r c : Int) (v : CellValue) :
    Workbook :=
  { wb with
    cells := fun s' r' c' =>
      if s' = s ∧ r' = r ∧ c' = c then v else wb.cells s' r' c' }

/-- One element of an instruction's `updates` list; each key may be absent
(the dicts are built dynamically). -/
structure SubUpdate where
  row : Option Int
  column : Option (List Char)
  value : Option ℚ
deriving DecidableEq

/-- An update-instruction dict as consumed by `apply_updates`: every key the
code ever reads, each optional.  `value`/`date` are modelled as numbers (the
code only ever supplies numbers there). -/
structure UpdateDict where
  sheet : Option String
  section_ : Option (List Char)
  product_name : Option (List Char)
  column : Option (List Char)
  value : Option ℚ
  updates : Option (List SubUpdate)
  date : Option ℚ
deriving DecidableEq

/-- `_get_column_index`: base-26 column letters to a 0-based index, through
`ord(char.upper()) - ord('A') + 1`. -/
def get_column_index (column : List Char) : Int :=
  column.foldl (fun res c => res * 26 + ((c.toUpper.toNat : Int) - 65 + 1)) 0
    - 1

/-- Python truthiness of a cell value (`if not product_name`). -/
def pyFalsy : CellValue → Bool
  | .none => true
  | .str s => s = []
  | .num q => q = 0

/-- Decimal digits of `n`, most significant first. -/
def natChars (n : Nat) : List Char := Nat.toDigits 10 n

/-- Fuelled decimal expansion of a rational in `[0, 1)`. -/
def fracChars : Nat → ℚ → List Char
  | 0, _ => []
  | fuel + 1, q =>
    if q = 0 then []
    else
      let d := (Rat.floor (q * 10)).toNat
      Char.ofNat (48 + d) :: fracChars fuel (q * 10 - Rat.floor (q * 10))

/-- Python `str()` of a cell value.  For numeric cells this renders the exact
decimal expansion (an approximation of CPython's float `repr`; no verified
property reads it). -/
def pyStr : CellValue → List Char
  | .none => "None".toList
  | .str s => s
  | .num q =>
    (if q < 0 then ['-'] else []) ++ natChars (Rat.floor |q|).toNat ++
      (if (|q| - Rat.floor |q|) = 0 then []
       else '.' :: fracChars 17 (|q| - Rat.floor |q|))

/-- `_normalize_product_name`: falsy values give `""`; otherwise string-cast,
strip, and drop one trailing `号`. -/
def normalize_product_name (v : CellValue) : List Char :=
  if pyFalsy v then []
  else
    let s := pyStrip (pyStr v)
    if s.getLast? = some '号' then s.dropLast else s

/-- `_validate_update`: `None` means valid, `some msg` is the raised
`ValueError`.  Mirrors the key-presence checks of the source (note that the
`section` key is never validated). -/
def validate_update (wb : Workbook) (u : UpdateDict) : Option String :=
  match u.sheet with
  | Option.none => some ("Update must specify a sheet name")
  | some s =>
    if s ∈ wb.sheetnames then
      if s = "调价前" ∨ s = "调价后" then
        match u.product_name with
        | some _ =>
          if u.column.isSome && u.value.isSome then Option.none
          else some ("Product name based update must include column and value")
        | Option.none =>
          match u.updates with
          | some us =>
            if us.all fun e => e.row.isSome && e.column.isSome && e.value.isSome
            then Option.none
            else some ("Row/column based updates must include row, column, and value")
          | Option.none => some ("Invalid update format for sheet")
      else if s = "油品优惠明细 2" then
        if u.date.isNone || u.updates.isNone then
          some ("Date based update must include date and updates")
        else if (u.updates.getD []).all fun e => e.column.isSome && e.value.isSome
        then Option.none
        else some ("Date based updates must include column and value")
      else Option.none
    else some ("Sheet not found in workbook")

/-- The running `handling_fees` accumulator: an association list keyed by
`(row, column)` (1-based, with no sheet component, exactly as in the code). -/
abbrev Fees := List ((Int × Int) × ℚ)

/-- Dict lookup on the accumulator. -/
def lookupFees : Fees → Int × Int → Option ℚ
  | [], _ => Option.none
  | (k, v) :: t, key => if k = key then some v else lookupFees t key

/-- Dict store on the accumulator. -/
def insertFees : Fees → Int × Int → ℚ → Fees
  | [], key, v => [(key, v)]
  | (k, w) :: t, key, v =>
    if k = key then (key, v) :: t else (k, w) :: insertFees t key v

/-- The mutable state threaded through `apply_updates`: the workbook being
mutated in place and the `handling_fees` dict. -/
structure EState where
  wb : Workbook
  fees : Fees

/-- Run `f` over a list, threading the state and stopping at the first raised
exception while keeping the mutations made so far (Python semantics). -/
def seqFold (f : EState → α → EState × Option String) :
    EState → List α → EState × Option String
  | st, [] => (st, Option.none)
  | st, a :: as =>
    match f st a with
    | (st', Option.none) => seqFold f st' as
    | (st', some e) => (st', some e)

/-- One element of a row/column based `updates` list (the loop body of the
`elif 'updates' in update` branch), including the handling-fee special case
for `(row 81, column 'E')`. -/
def cellStep (s : String) (st : EState) (e : SubUpdate) :
    EState × Option String :=
  match e.row, e.column, e.value with
  | some r, some c, some v =>
    if r = 81 ∧ c = ['E'] then
      let ci := get_column_index c + 1
      let first := lookupFees st.fees (r, ci)
      let fees1 :=
        match first with
        | Option.none => insertFees st.fees (r, ci) 0
        | some _ => st.fees
      let wb1 :=
        match first with
        | Option.none => setCell st.wb s r ci CellValue.none
        | some _ => st.wb
      let acc := (lookupFees fees1 (r, ci)).getD 0 + v
      (⟨setCell wb1 s r ci (CellValue.num acc), insertFees fees1 (r, ci) acc⟩,
        Option.none)
    else
      (⟨setCell st.wb s r (get_column_index c + 1) (CellValue.num v), st.fees⟩,
        Option.none)
  | _, _, _ => (st, some ("KeyError"))

/-- Row numbers visited by `iter_rows(min_row=3)`. -/
def catRows (wb : Workbook) (s : String) : List Int :=
  (List.range' 3 (wb.maxRow s - 2)).map fun n => (n : Int)

/-- Row numbers visited by `iter_rows(min_row=2)`. -/
def dateRows (wb : Workbook) (s : String) : List Int :=
  (List.range' 2 (wb.maxRow s - 1)).map fun n => (n : Int)

/-- The categorical (product-name) scan: carry the stripped section marker of
column A downward, and in rows of the target section compare normalized
column-B values against the normalized `product_name`; write at the first
match and stop.  A non-string marker raises (`.strip()` on a non-string);
a missing `product_name`/`column`/`value` key raises at its first access. -/
def catGo (wb : Workbook) (s : String) (target : List Char)
    (pname col : Option (List Char)) (val : Option ℚ) :
    List Int → Option (List Char) → Workbook × Option String
  | [], _ => (wb, Option.none)
  | r :: rest, cur =>
    match wb.cells s r 1 with
    | .num _ => (wb, some ("AttributeError"))
    | mk =>
      let cur' := match mk with
        | .str t => some (pyStrip t)
        | _ => cur
      if cur' = some target then
        let pn := wb.cells s r 2
        if pyFalsy pn then catGo wb s target pname col val rest cur'
        else
          match pname with
          | Option.none => (wb, some ("KeyError"))
          | some key =>
            if normalize_product_name pn = normalize_product_name (.str key)
            then
              match col, val with
              | some c, some v =>
                (setCell wb s r (get_column_index c + 1) (CellValue.num v),
                  Option.none)
              | _, _ => (wb, some ("KeyError"))
            else catGo wb s target pname col val rest cur'
      else catGo wb s target pname col val rest cur'

/-- Does the cell hold exactly the number `d` (`row[1].value == date`)? -/
def cellEqQ (v : CellValue) (d : ℚ) : Bool :=
  match v with
  | .num q => q = d
  | _ => false

/-- One `col_update` write of the date-based branch. -/
def dateCellStep (s : String) (r : Int) (st : EState) (e : SubUpdate) :
    EState × Option String :=
  match e.column, e.value with
  | some c, some v =>
    (⟨setCell st.wb s r (get_column_index c + 1) (CellValue.num v), st.fees⟩,
      Option.none)
  | _, _ => (st, some ("KeyError"))

/-- Processing of one instruction inside `apply_updates`: validate it, then
dispatch on the sheet name and the keys present.  Note the asymmetry faithful
to the source: validation looks for `product_name`, dispatch for `section`;
a `section` outside `{A, B, C}` falls through silently; sheets other than the
three known ones are validated but then ignored. -/
def applyStep (st : EState) (u : UpdateDict) : EState × Option String :=
  match validate_update st.wb u with
  | some e => (st, some e)
  | Option.none =>
    let s := u.sheet.getD ("")
    if s = "调价前" ∨ s = "调价后" then
      match u.section_ with
      | some target =>
        if target = ['A'] ∨ target = ['B'] ∨ target = ['C'] then
          let res := catGo st.wb s target u.product_name u.column u.value
            (catRows st.wb s) Option.none
          (⟨res.1, st.fees⟩, res.2)
        else (st, Option.none)
      | Option.none =>
        match u.updates with
        | some subs => seqFold (cellStep s) st subs
        | Option.none => (st, Option.none)
    else if s = "油品优惠明细 2" then
      match (dateRows st.wb s).find?
          (fun r => cellEqQ (st.wb.cells s r 2) (u.date.getD 0)) with
      | some r => seqFold (dateCellStep s r) st (u.updates.getD [])
      | Option.none => (st, Option.none)
    else (st, Option.none)

/-- `apply_updates`: run the batch over the workbook, starting from an empty
`handling_fees` dict.  The result carries the (possibly partially) mutated
state together with the raised exception, if any. -/
def apply_updates (wb : Workbook) (updates : List UpdateDict) :
    EState × Option String :=
  seqFold applyStep ⟨wb, []⟩ updates

/-! ## `_process_guotong` (`src/processors/invoice_processor.py`) -/

/-- Round half to even at integer precision (Python `round`). -/
def roundHalfEven (q : ℚ) : Int :=
  let f := ⌊q⌋
  let d := q - f
  if d < 1 / 2 then f
  else if 1 / 2 < d then f + 1
  else if f % 2 = 0 then f else f + 1

/-- Python `round(x, 2)` (idealized over exact rationals). -/
def pyRound2 (q : ℚ) : ℚ := (roundHalfEven (q * 100) : ℚ) / 100

/-- Dict access `processed_data[k]`: `KeyError` when absent. -/
def lookupRaw (raw : List (String × PyValue)) (k : String) :
    Except String PyValue :=
  match raw.find? (fun p => p.1 = k) with
  | some p => Except.ok p.2
  | Option.none => Except.error ("KeyError")

/-- The single row/column instruction emitted by `_process_guotong` for the
fixed cell `(row, 'H')` of sheet `调价前`. -/
def guotongInstr (row : Int) (v : ℚ) : UpdateDict :=
  { sheet := some ("调价前"), section_ := Option.none,
    product_name := Option.none, column := Option.none, value := Option.none,
    updates := some [{ row := some row, column := some ['H'], value := some v }],
    date := Option.none }

/-- `_process_guotong`: `settlement_amount` is the parsed order amount minus
the parsed refund amount, divided by 3 and rounded to 2 decimals; category
`国通1` writes the fixed cell row 92 column H, `国通2` row 93 column H, and
any other category raises. -/
def process_guotong (raw : List (String × PyValue)) (category : String) :
    Except String (List (String × ℚ) × List UpdateDict) := do
  let a ← lookupRaw raw "订单金额"
  let b ← lookupRaw raw "退款订单金额"
  let settlement_amount :=
    parse_numeric_value a Option.none 0 - parse_numeric_value b Option.none 0
  let sa := pyRound2 (settlement_amount / 3)
  if category = "国通1" then
    Except.ok ([("settlement_amount", sa)], [guotongInstr 92 sa])
  else if category = "国通2" then
    Except.ok ([("settlement_amount", sa)], [guotongInstr 93 sa])
  else Except.error ("Invalid category")

/-! ## Declarative descriptions used to state the claims -/

/-- `NumCore l`: `l` is an unsigned token of the regex language
`[\d,]*\.?\d+` matched in full: either `integer-part . digits` or a pure
digit/comma string ending in a digit. -/
def NumCore (l : List Char) : Prop :=
  (∃ r d, l = r ++ '.' :: d ∧ (∀ c ∈ r, isDC c = true) ∧ d ≠ [] ∧
    ∀ c ∈ d, c.isDigit = true) ∨
  (l ≠ [] ∧ (∀ c ∈ l, isDC c = true) ∧
    ∃ c, l.getLast? = some c ∧ c.isDigit = true)

/-- `NumToken l`: a numeric token — an optional sign, optional
thousands-separator commas, optional decimal point, at least one digit. -/
def NumToken (l : List Char) : Prop :=
  NumCore l ∨ ∃ c r, (c = '-' ∨ c = '+') ∧ NumCore r ∧ l = c :: r

/-- All `(sheet, sub-update)` pairs of a batch of row/column instructions, in
application order. -/
def flatCells (us : List UpdateDict) : List (String × SubUpdate) :=
  us.flatMap fun u => (u.updates.getD []).map fun e => (u.sheet.getD (""), e)

/-- Is this sub-update routed to the accumulating branch (`row == 81 and
column == 'E'`)? -/
def isFeeSub (p : String × SubUpdate) : Bool :=
  p.2.row = some 81 && p.2.column = some ['E']

/-- The values written to the accumulating cell by a flattened batch. -/
def feeValues (l : List (String × SubUpdate)) : List ℚ :=
  (l.filter isFeeSub).map fun p => (p.2.value.getD 0)

/-- Does the sub-update write the physical cell `(s, r, ci)` (sheet, 1-based
row, 1-based column index)? -/
def targetsCell (s : String) (r ci : Int) (p : String × SubUpdate) : Bool :=
  p.1 = s && p.2.row = some r &&
    get_column_index ((p.2.column).getD []) + 1 = ci

/-- A batch of well-formed row/column ("CellUpdate") instructions for the
pricing sheets: every instruction names an existing pricing sheet, carries no
`section`/`product_name` key, and its `updates` elements all have `row`,
`column` and `value`. -/
def cellBatchWF (wb : Workbook) (us : List UpdateDict) : Prop :=
  ∀ u ∈ us, (u.sheet).isSome ∧
    ((u.sheet).getD ("") = "调价前" ∨ (u.sheet).getD ("") = "调价后") ∧
    (u.sheet).getD ("") ∈ wb.sheetnames ∧ u.section_ = Option.none ∧
    u.product_name = Option.none ∧ (u.updates).isSome ∧
    ∀ e ∈ (u.updates).getD [], (e.row).isSome ∧ (e.column).isSome ∧
      (e.value).isSome

/-- Every write into the physical accumulating cell `(81, 5)` goes through
the accumulating branch on sheet `调价前`: it is spelled with column
literally `'E'` and targets the pre-adjustment sheet. -/
def feeWritesCanonical (us : List UpdateDict) : Prop :=
  ∀ p ∈ flatCells us,
    (p.2.row = some 81 ∧ get_column_index ((p.2.column).getD []) + 1 = 5) →
    p.1 = "调价前" ∧ p.2.column = some ['E']

/-- Is the cell a numeric cell (on which Python `.strip()` would raise)? -/
def isNumCell : CellValue → Bool
  | .num _ => true
  | _ => false

/-- Annotate each row of a categorical scan with the section in force there:
the most recently seen non-`None` column-A marker (stripped), carried
downward through rows with an empty marker. -/
def annotateSections (wb : Workbook) (s : String) :
    List Int → Option (List Char) → List (Int × Option (List Char))
  | [], _ => []
  | r :: rest, cur =>
    let cur' := match wb.cells s r 1 with
      | .str t => some (pyStrip t)
      | _ => cur
    (r, cur') :: annotateSections wb s rest cur'

/-- Does an annotated row match a categorical update: its section is the
target and its non-empty column-B lookup value, normalized, equals the
normalized lookup key. -/
def rowIsMatch (wb : Workbook) (s : String) (target key : List Char)
    (p : Int × Option (List Char)) : Bool :=
  p.2 = some target && !pyFalsy (wb.cells s p.1 2) &&
    normalize_product_name (wb.cells s p.1 2)
      = normalize_product_name (.str key)

/-! ## Concrete inputs used by witnesses and counterexamples -/

/-- A workbook with the three known sheets and no populated rows. -/
def wb0 : Workbook :=
  { sheetnames := ["调价前", "调价后", "油品优惠明细 2"],
    maxRow := fun _ => 0,
    cells := fun _ _ _ => CellValue.none }

/-- A row/column based instruction (`{'sheet': …, 'updates': […]}`). -/
def mkCellInstr (sheet : String) (subs : List SubUpdate) : UpdateDict :=
  { sheet := some sheet, section_ := Option.none, product_name := Option.none,
    column := Option.none, value := Option.none, updates := some subs,
    date := Option.none }

/-- A complete `{'row': r, 'column': c, 'value': v}` element. -/
def mkSub (r : Int) (c : List Char) (v : ℚ) : SubUpdate :=
  { row := some r, column := some c, value := some v }

/-- An instruction whose sheet is absent from `wb0`. -/
def badSheetInstr : UpdateDict :=
  { sheet := some ("不存在"), section_ := Option.none,
    product_name := Option.none, column := Option.none, value := Option.none,
    updates := Option.none, date := Option.none }

/-- A categorical instruction with the out-of-range section `D`. -/
def catDInstr : UpdateDict :=
  { sheet := some ("调价前"), section_ := some ['D'],
    product_name := some ['3'], column := some ['C'], value := some 1,
    updates := Option.none, date := Option.none }

/-- A small pre-adjustment sheet for the categorical-scan witness: section
`A` starts at row 3 (whose pump label is `1号`), rows 4 is `3号` inside
section `A`, and section `B` starts at row 5 with another `3号`. -/
def wbCat : Workbook :=
  { sheetnames := ["调价前"],
    maxRow := fun s => if s = "调价前" then 6 else 0,
    cells := fun s r c =>
      if s = "调价前" ∧ c = 1 ∧ r = 3 then CellValue.str ("A".toList)
      else if s = "调价前" ∧ c = 1 ∧ r = 5 then CellValue.str ("B".toList)
      else if s = "调价前" ∧ c = 2 ∧ r = 3 then CellValue.str ("1号".toList)
      else if s = "调价前" ∧ c = 2 ∧ r = 4 then CellValue.str ("3号".toList)
      else if s = "调价前" ∧ c = 2 ∧ r = 5 then CellValue.str ("3号".toList)
      else CellValue.none }

/-- A workbook whose date-keyed sheet has rows for days 1 and 2 only. -/
def wbDate : Workbook :=
  { sheetnames := ["调价前", "油品优惠明细 2"],
    maxRow := fun s => if s = "油品优惠明细 2" then 3 else 0,
    cells := fun s r c =>
      if s = "油品优惠明细 2" ∧ c = 2 ∧ r = 2 then CellValue.num 1
      else if s = "油品优惠明细 2" ∧ c = 2 ∧ r = 3 then CellValue.num 2
      else CellValue.none }

/-- A date-keyed instruction for day 32 (present in no row). -/
def day32Instr : UpdateDict :=
  { sheet := some ("油品优惠明细 2"), section_ := Option.none,
    product_name := Option.none, column := Option.none, value := Option.none,
    updates := some [⟨Option.none, some ['C'], some 4⟩],
    date := some 32 }

/-- `cellStep` lifted to `(sheet, sub-update)` pairs, used to reason about a
whole batch of row/column instructions as one flattened list. -/
def pairCellStep (st : EState) (p : String × SubUpdate) :
    EState × Option String :=
  cellStep p.1 st p.2

/-- The accumulating-cell example batch: three fee writes `1.60`, `3.00`,
`0.50` to row 81 column E of `调价前`, with an unrelated write interleaved. -/
def usFee : List UpdateDict :=
  [mkCellInstr ("调价前") [mkSub 81 ['E'] 1.6],
   mkCellInstr ("调价前") [mkSub 81 ['E'] 3, mkSub 1 ['A'] 9],
   mkCellInstr ("调价前") [mkSub 81 ['E'] 0.5]]

/-! ## General lemmas about the engine fold -/

theorem seqFold_append {α : Type} (f : EState → α → EState × Option String)
    (l1 l2 : List α) (st : EState) :
    seqFold f st (l1 ++ l2) =
      (match seqFold f st l1 with
       | (st', Option.none) => seqFold f st' l2
       | (st', some e) => (st', some e)) := by
  induction l1 generalizing st with
  | nil => rfl
  | cons a as ih =>
    show seqFold f st (a :: (as ++ l2)) = _
    simp only [seqFold]
    rcases h : f st a with ⟨st', err⟩
    cases err with
    | none => exact ih st'
    | some e => rfl

/-! ## Claim theorems: the value parser -/

/-- Claim C9: `parse_numeric_value` treats commas inside the integer part as
thousands separators, not decimal points: `parse("25,378.75") = 25378.75`
without a unit, and `parse("2,225,378.75元", unit="元") = 2225378.75` with a
unit. -/
theorem c9_comma_thousands_separators :
    parse_numeric_value (.vStr ("25,378.75".toList)) Option.none 0
        = 25378.75 ∧
    parse_numeric_value (.vStr ("2,225,378.75元".toList)) (some ("元".toList))
        0 = 2225378.75 := by
  constructor
  · have h : parse_numeric_value (.vStr ("25,378.75".toList)) Option.none 0
        = tokenToRat ("25,378.75".toList) := rfl
    have h2 : tokenToRat ("25,378.75".toList)
        = (25378 : ℚ) + (75 : ℚ) / 10 ^ 2 := rfl
    rw [h, h2]; norm_num
  · have h : parse_numeric_value (.vStr ("2,225,378.75元".toList))
        (some ("元".toList)) 0 = tokenToRat ("2,225,378.75".toList) := rfl
    have h2 : tokenToRat ("2,225,378.75".toList)
        = (2225378 : ℚ) + (75 : ℚ) / 10 ^ 2 := rfl
    rw [h, h2]; norm_num

/-- Claim C6: `parse_numeric_value` never propagates an exception (it is a
total function of its inputs in this model) and returns the supplied default
on any input it cannot interpret as a number: `None`, a dict, the empty
string, or a bare unit glyph such as `"元"`; with `default_value = -1` the
fallback is `-1`, and with the default default it is `0`. -/
theorem c6_default_fallback :
    ∀ (u : Option (List Char)) (d : ℚ),
      parse_numeric_value PyValue.vNone u d = d ∧
      parse_numeric_value PyValue.vDict u d = d ∧
      parse_numeric_value (.vStr []) Option.none d = d ∧
      parse_numeric_value (.vStr ("元".toList)) Option.none d = d ∧
      parse_numeric_value (.vStr ("x".toList)) Option.none (-1) = -1 ∧
      parse_numeric_value PyValue.vNone u 0 = 0 :=
  fun _ _ => ⟨rfl, rfl, rfl, rfl, rfl, rfl⟩

/-! ## Claim theorems: the 国通 extractor -/

/-- Claim C4: the 国通 "order minus refund" extractor returns
`settlement_amount = round((parse(订单金额) - parse(退款订单金额)) / 3, 2)`
together with exactly one row/column instruction at the category's fixed cell
(row 92 column H for `国通1`, row 93 column H for `国通2`), and on the raw
fields `{"订单金额": "1000.00", "退款订单金额": "100.00"}` the processed data
is `{"settlement_amount": 300}` with the single cell value `300`. -/
theorem c4_guotong_order_minus_refund :
    (∀ va vb : PyValue,
      process_guotong [("订单金额", va), ("退款订单金额", vb)] ("国通1")
        = Except.ok ([("settlement_amount",
            pyRound2 ((parse_numeric_value va Option.none 0
              - parse_numeric_value vb Option.none 0) / 3))],
          [guotongInstr 92 (pyRound2 ((parse_numeric_value va Option.none 0
              - parse_numeric_value vb Option.none 0) / 3))]) ∧
      process_guotong [("订单金额", va), ("退款订单金额", vb)] ("国通2")
        = Except.ok ([("settlement_amount",
            pyRound2 ((parse_numeric_value va Option.none 0
              - parse_numeric_value vb Option.none 0) / 3))],
          [guotongInstr 93 (pyRound2 ((parse_numeric_value va Option.none 0
              - parse_numeric_value vb Option.none 0) / 3))])) ∧
    process_guotong [("订单金额", .vStr ("1000.00".toList)),
        ("退款订单金额", .vStr ("100.00".toList))] ("国通1")
      = Except.ok ([("settlement_amount", 300)], [guotongInstr 92 300]) := by
  refine ⟨fun va vb => ⟨rfl, rfl⟩, ?_⟩
  have ha : parse_numeric_value (.vStr ("1000.00".toList)) Option.none 0
      = tokenToRat ("1000.00".toList) := rfl
  have ha2 : tokenToRat ("1000.00".toList) = (1000 : ℚ) + (0 : ℚ) / 10 ^ 2 :=
    rfl
  have hb : parse_numeric_value (.vStr ("100.00".toList)) Option.none 0
      = tokenToRat ("100.00".toList) := rfl
  have hb2 : tokenToRat ("100.00".toList) = (100 : ℚ) + (0 : ℚ) / 10 ^ 2 := rfl
  have hgen : process_guotong [("订单金额", .vStr ("1000.00".toList)),
      ("退款订单金额", .vStr ("100.00".toList))] ("国通1")
      = Except.ok ([("settlement_amount",
          pyRound2 ((parse_numeric_value (.vStr ("1000.00".toList))
              Option.none 0
            - parse_numeric_value (.vStr ("100.00".toList)) Option.none 0)
            / 3))],
        [guotongInstr 92 (pyRound2 ((parse_numeric_value
            (.vStr ("1000.00".toList)) Option.none 0
          - parse_numeric_value (.vStr ("100.00".toList)) Option.none 0)
          / 3))]) := rfl
  rw [hgen, ha, ha2, hb, hb2]
  have hr : pyRound2 ((((1000 : ℚ) + (0 : ℚ) / 10 ^ 2)
      - ((100 : ℚ) + (0 : ℚ) / 10 ^ 2)) / 3) = 300 := by
    norm_num [pyRound2, roundHalfEven]
  rw [hr]

/-! ## Claim theorems: the accumulating-cell column key (C10) -/

/-- Claim C10: the accumulating branch is keyed on the literal column string
`'E'` while `_get_column_index` upper-cases letters, so a `CellUpdate` for
sheet `调价前` at row 81 with column `'e'` addresses the same physical column
index as `'E'` but takes the plain overwrite branch: it leaves the
`handling_fees` accumulator untouched and replaces the cell (here the
accumulated `1 + 3 = 4` is replaced by `7` within one batch, with no error). -/
theorem c10_lowercase_e_overwrites :
    get_column_index ['e'] = get_column_index ['E'] ∧
    (∀ (st : EState) (v : ℚ),
      cellStep ("调价前") st ⟨some 81, some ['e'], some v⟩ =
        (⟨setCell st.wb ("调价前") 81 5 (CellValue.num v), st.fees⟩,
          Option.none)) ∧
    (apply_updates wb0 [mkCellInstr ("调价前")
        [mkSub 81 ['E'] 1, mkSub 81 ['E'] 3, mkSub 81 ['e'] 7]]).1.wb.cells
        ("调价前") 81 5 = CellValue.num 7 ∧
    (apply_updates wb0 [mkCellInstr ("调价前")
        [mkSub 81 ['E'] 1, mkSub 81 ['E'] 3, mkSub 81 ['e'] 7]]).2
      = Option.none :=
  ⟨rfl, fun _ _ => rfl, by decide, by decide⟩

/-! ## Claim C1: validation failure and partial writes -/

/-- Claim C1 counterexample: in a batch whose first instruction is valid and
whose second references a missing sheet, `apply_updates` raises — but the
first instruction's write has already mutated the workbook, so the batch is
not applied atomically. -/
theorem c1_counterexample :
    (apply_updates wb0
        [mkCellInstr ("调价前") [mkSub 1 ['A'] 7], badSheetInstr]).2.isSome
      = true ∧
    (apply_updates wb0
        [mkCellInstr ("调价前") [mkSub 1 ['A'] 7], badSheetInstr]).1.wb.cells
        ("调价前") 1 1 = CellValue.num 7 ∧
    wb0.cells ("调价前") 1 1 ≠ CellValue.num 7 := by decide

/-- Claim C1 as amended: when an instruction of the batch fails validation,
`apply_updates` raises that error and neither the failing instruction nor any
later one is applied — but all instructions preceding the failing one have
already been applied, and their writes persist in the workbook. -/
theorem c1_validation_aborts_rest (wb : Workbook) (pre post : List UpdateDict)
    (bad : UpdateDict)
    (hpre : (seqFold applyStep ⟨wb, []⟩ pre).2 = Option.none)
    (hbad : (validate_update (seqFold applyStep ⟨wb, []⟩ pre).1.wb bad).isSome
      = true) :
    apply_updates wb (pre ++ bad :: post) =
      ((seqFold applyStep ⟨wb, []⟩ pre).1,
        validate_update (seqFold applyStep ⟨wb, []⟩ pre).1.wb bad) := by
  unfold apply_updates
  rw [seqFold_append]
  rcases h : seqFold applyStep ⟨wb, []⟩ pre with ⟨st1, err⟩
  rw [h] at hpre hbad
  simp only at hpre hbad
  subst hpre
  obtain ⟨e, he⟩ := Option.isSome_iff_exists.mp hbad
  have hstep : applyStep st1 bad = (st1, some e) := by
    unfold applyStep
    rw [he]
  show seqFold applyStep st1 (bad :: post) = (st1, validate_update st1.wb bad)
  simp only [seqFold, hstep, he]

/-- Witness for `c1_validation_aborts_rest` at a concrete workbook and batch:
the hypotheses hold and the final state is the one reached after the single
preceding instruction, with its write to `(调价前, 1, 1)` persisting. -/
theorem c1_validation_aborts_rest_witness :
    (seqFold applyStep ⟨wb0, []⟩ [mkCellInstr ("调价前") [mkSub 1 ['A'] 7]]).2
      = Option.none ∧
    (validate_update (seqFold applyStep ⟨wb0, []⟩
        [mkCellInstr ("调价前") [mkSub 1 ['A'] 7]]).1.wb badSheetInstr).isSome
      = true ∧
    apply_updates wb0 ([mkCellInstr ("调价前") [mkSub 1 ['A'] 7]] ++
        badSheetInstr :: [mkCellInstr ("调价前") [mkSub 2 ['A'] 1]]) =
      ((seqFold applyStep ⟨wb0, []⟩
          [mkCellInstr ("调价前") [mkSub 1 ['A'] 7]]).1,
        validate_update (seqFold applyStep ⟨wb0, []⟩
          [mkCellInstr ("调价前") [mkSub 1 ['A'] 7]]).1.wb badSheetInstr) :=
  ⟨by decide, by decide,
    c1_validation_aborts_rest wb0 [mkCellInstr ("调价前") [mkSub 1 ['A'] 7]]
      [mkCellInstr ("调价前") [mkSub 2 ['A'] 1]] badSheetInstr (by decide)
      (by decide)⟩

/-! ## Claim C3: out-of-range categorical section -/

/-- Claim C3 counterexample: a categorical instruction with section `D`
passes validation and `apply_updates` completes with no error (instead of
raising a `ValidationError`), leaving the workbook untouched — the
out-of-range section is silently ignored. -/
theorem c3_counterexample :
    (apply_updates wb0 [catDInstr]).2 = Option.none ∧
    (apply_updates wb0 [catDInstr]).1.wb.cells ("调价前") 3 3
      = wb0.cells ("调价前") 3 3 := by decide

/-- Claim C3 as amended: a categorical instruction whose section is not one
of `A`, `B`, `C` is not rejected: validation never inspects the `section`
key, and the dispatch silently skips the instruction, leaving the state
unchanged and raising nothing. -/
theorem c3_section_silently_ignored (st : EState) (u : UpdateDict) (s : String)
    (t : List Char) (hs : u.sheet = some s)
    (hpr : s = "调价前" ∨ s = "调价后") (hmem : s ∈ st.wb.sheetnames)
    (ht : u.section_ = some t) (htA : t ≠ ['A']) (htB : t ≠ ['B'])
    (htC : t ≠ ['C']) (hp : (u.product_name).isSome = true)
    (hc : (u.column).isSome = true) (hv : (u.value).isSome = true) :
    applyStep st u = (st, Option.none) := by
  obtain ⟨pn, hpn⟩ := Option.isSome_iff_exists.mp hp
  have hval : validate_update st.wb u = Option.none := by
    unfold validate_update
    rcases hpr with h | h <;> subst h <;>
      simp [hs, hmem, hpn, hc, hv]
  unfold applyStep
  rw [hval, hs]
  rcases hpr with h | h <;> subst h <;> simp [ht, htA, htB, htC]

/-- Witness for `c3_section_silently_ignored` at the concrete section-`D`
instruction. -/
theorem c3_section_silently_ignored_witness :
    catDInstr.sheet = some ("调价前") ∧
    ("调价前" = "调价前" ∨ "调价前" = "调价后") ∧
    "调价前" ∈ wb0.sheetnames ∧ catDInstr.section_ = some ['D'] ∧
    ['D'] ≠ ['A'] ∧ ['D'] ≠ ['B'] ∧ ['D'] ≠ ['C'] ∧
    (catDInstr.product_name).isSome = true ∧
    (catDInstr.column).isSome = true ∧ (catDInstr.value).isSome = true ∧
    applyStep ⟨wb0, []⟩ catDInstr = (⟨wb0, []⟩, Option.none) :=
  ⟨by decide, Or.inl rfl, by decide, by decide, by decide, by decide,
    by decide, by decide, by decide, by decide,
    c3_section_silently_ignored ⟨wb0, []⟩ catDInstr ("调价前") ['D']
      (by decide) (Or.inl rfl) (by decide) (by decide) (by decide) (by decide)
      (by decide) (by decide) (by decide) (by decide)⟩

/-! ## Claim C2: the accumulating cell -/

/-- Claim C2 counterexample: two writes to row 81 column `E` of sheet
`调价后` — a cell other than the designated `调价前` one — are accumulated
(`1 + 2 = 3`) instead of the later write overwriting the earlier one: the
special case fires for both pricing sheets. -/
theorem c2_counterexample :
    (apply_updates wb0
        [mkCellInstr ("调价后") [mkSub 81 ['E'] 1, mkSub 81 ['E'] 2]]).2
      = Option.none ∧
    (apply_updates wb0
        [mkCellInstr ("调价后") [mkSub 81 ['E'] 1, mkSub 81 ['E'] 2]]).1.wb.cells
        ("调价后") 81 5 = CellValue.num 3 ∧
    CellValue.num 3 ≠ CellValue.num 2 := by
  refine ⟨by decide, ?_, by decide⟩
  have h : (apply_updates wb0
      [mkCellInstr ("调价后") [mkSub 81 ['E'] 1, mkSub 81 ['E'] 2]]).1.wb.cells
      ("调价后") 81 5 = CellValue.num ((0 : ℚ) + 1 + 2) := rfl
  rw [h]
  norm_num

/-! ## Claim C8: date lookup miss is non-fatal -/

/-- Claim C8: a date-keyed instruction whose day matches no row of the
date-keyed sheet is non-fatal: the miss writes nothing and raises nothing, so
applying the batch with the missing-day instruction equals applying the batch
without it — every other instruction is still applied. -/
theorem c8_date_miss_nonfatal (wb : Workbook) (pre post : List UpdateDict)
    (u : UpdateDict) (d : ℚ) (subs : List SubUpdate)
    (hpre : (seqFold applyStep ⟨wb, []⟩ pre).2 = Option.none)
    (hsheet : u.sheet = some ("油品优惠明细 2"))
    (hmem : "油品优惠明细 2" ∈
      (seqFold applyStep ⟨wb, []⟩ pre).1.wb.sheetnames)
    (hdate : u.date = some d) (hsubs : u.updates = some subs)
    (hcomplete : ∀ e ∈ subs,
      (e.column).isSome = true ∧ (e.value).isSome = true)
    (hmiss : ∀ r ∈ dateRows (seqFold applyStep ⟨wb, []⟩ pre).1.wb
        ("油品优惠明细 2"),
      cellEqQ ((seqFold applyStep ⟨wb, []⟩ pre).1.wb.cells
        ("油品优惠明细 2") r 2) d = false) :
    apply_updates wb (pre ++ u :: post) = apply_updates wb (pre ++ post) := by
  unfold apply_updates
  rw [seqFold_append, seqFold_append]
  rcases h : seqFold applyStep ⟨wb, []⟩ pre with ⟨st1, err⟩
  rw [h] at hpre hmem hmiss
  simp only at hpre
  subst hpre
  have hval : validate_update st1.wb u = Option.none := by
    unfold validate_update
    rw [hsheet]
    have hall : subs.all (fun e => (e.column).isSome && (e.value).isSome)
        = true := by
      rw [List.all_eq_true]
      intro e he
      rw [Bool.and_eq_true]
      exact ⟨(hcomplete e he).1, (hcomplete e he).2⟩
    simp [hmem, hdate, hsubs, hall]
  have hstep : applyStep st1 u = (st1, Option.none) := by
    unfold applyStep
    rw [hval, hsheet]
    have hfind : (dateRows st1.wb ("油品优惠明细 2")).find?
        (fun r => cellEqQ (st1.wb.cells ("油品优惠明细 2") r 2)
          ((u.date).getD 0)) = Option.none := by
      rw [List.find?_eq_none]
      intro r hr
      rw [hdate]
      simp only [Option.getD_some]
      simp [hmiss r hr]
    simp [hfind]
  show seqFold applyStep st1 (u :: post) = seqFold applyStep st1 post
  simp only [seqFold, hstep]

/-- Witness for `c8_date_miss_nonfatal`: on a workbook whose date sheet holds
days 1 and 2 only, a `date = 32` instruction leaves the run of the rest of
the batch unchanged. -/
theorem c8_date_miss_nonfatal_witness :
    (∀ r ∈ dateRows wbDate ("油品优惠明细 2"),
      cellEqQ (wbDate.cells ("油品优惠明细 2") r 2) 32 = false) ∧
    apply_updates wbDate ([] ++ day32Instr ::
        [mkCellInstr ("调价前") [mkSub 1 ['A'] 2]]) =
      apply_updates wbDate ([] ++ [mkCellInstr ("调价前") [mkSub 1 ['A'] 2]]) :=
  ⟨by decide,
    c8_date_miss_nonfatal wbDate [] [mkCellInstr ("调价前") [mkSub 1 ['A'] 2]]
      day32Instr 32 [⟨Option.none, some ['C'], some 4⟩] (by decide) (by decide)
      (by decide) (by decide) (by decide) (by decide) (by decide)⟩

/-! ## Claim C7: the categorical scan -/

theorem catGo_eq_find (wb : Workbook) (s : String) (target key c : List Char)
    (v : ℚ) :
    ∀ (rows : List Int) (cur : Option (List Char)),
    (∀ r ∈ rows, isNumCell (wb.cells s r 1) = false) →
    catGo wb s target (some key) (some c) (some v) rows cur =
      (match (annotateSections wb s rows cur).find?
          (rowIsMatch wb s target key) with
       | some p => setCell wb s p.1 (get_column_index c + 1) (CellValue.num v)
       | Option.none => wb, Option.none) := by
  intro rows
  induction rows with
  | nil => intro cur _; rfl
  | cons r rest ih =>
    intro cur hnum
    have hr : isNumCell (wb.cells s r 1) = false :=
      hnum r (List.mem_cons_self r rest)
    have hrest : ∀ r' ∈ rest, isNumCell (wb.cells s r' 1) = false :=
      fun r' h => hnum r' (List.mem_cons_of_mem r h)
    rcases hm : wb.cells s r 1 with _ | t | q
    · -- marker cell empty: section carried through
      by_cases hcur : cur = some target
      · by_cases hfal : pyFalsy (wb.cells s r 2) = true
        · simp only [catGo, annotateSections, hm, List.find?]
          rw [if_pos hcur, if_pos hfal]
          have : rowIsMatch wb s target key (r, cur) = false := by
            simp [rowIsMatch, hfal]
          rw [this]
          exact ih cur hrest
        · by_cases hnorm : normalize_product_name (wb.cells s r 2)
              = normalize_product_name (.str key)
          · simp only [catGo, annotateSections, hm, List.find?]
            rw [if_pos hcur, if_neg hfal, if_pos hnorm]
            simp only [Bool.not_eq_true] at hfal
            have : rowIsMatch wb s target key (r, cur) = true := by
              simp [rowIsMatch, hcur, hnorm, hfal]
            rw [this]
          · simp only [catGo, annotateSections, hm, List.find?]
            rw [if_pos hcur, if_neg hfal, if_neg hnorm]
            have : rowIsMatch wb s target key (r, cur) = false := by
              simp [rowIsMatch, hnorm]
            rw [this]
            exact ih cur hrest
      · simp only [catGo, annotateSections, hm, List.find?]
        rw [if_neg hcur]
        have : rowIsMatch wb s target key (r, cur) = false := by
          simp [rowIsMatch]
          intro h
          exact absurd h hcur
        rw [this]
        exact ih cur hrest
    · -- marker cell a string: section updated
      by_cases hcur : some (pyStrip t) = some target
      · by_cases hfal : pyFalsy (wb.cells s r 2) = true
        · simp only [catGo, annotateSections, hm, List.find?]
          rw [if_pos hcur, if_pos hfal]
          have : rowIsMatch wb s target key (r, some (pyStrip t)) = false := by
            simp [rowIsMatch, hfal]
          rw [this]
          exact ih (some (pyStrip t)) hrest
        · by_cases hnorm : normalize_product_name (wb.cells s r 2)
              = normalize_product_name (.str key)
          · simp only [catGo, annotateSections, hm, List.find?]
            rw [if_pos hcur, if_neg hfal, if_pos hnorm]
            simp only [Bool.not_eq_true] at hfal
            have : rowIsMatch wb s target key (r, some (pyStrip t)) = true := by
              simp [rowIsMatch, Option.some.inj hcur, hnorm, hfal]
            rw [this]
          · simp only [catGo, annotateSections, hm, List.find?]
            rw [if_pos hcur, if_neg hfal, if_neg hnorm]
            have : rowIsMatch wb s target key (r, some (pyStrip t)) = false :=
              by simp [rowIsMatch, hnorm]
            rw [this]
            exact ih (some (pyStrip t)) hrest
      · simp only [catGo, annotateSections, hm, List.find?]
        rw [if_neg hcur]
        have : rowIsMatch wb s target key (r, some (pyStrip t)) = false := by
          simp [rowIsMatch]
          intro h
          exact absurd (by rw [h]) hcur
        rw [this]
        exact ih (some (pyStrip t)) hrest
    · rw [hm] at hr
      simp [isNumCell] at hr

/-- Claim C7: applying a categorical update scans rows from row 3 carrying
the most recently seen non-empty (non-`None`) section marker downward
(`annotateSections`), writes the value into the first row whose section is
the target and whose non-empty lookup value, normalized (string-cast, strip,
drop trailing `号`), equals the normalized key — then stops —, and leaves the
workbook unchanged when no row matches; a row value `3号` matches the key
`3`, but does not match the key `03`. -/
theorem c7_categorical_lookup (wb : Workbook) (s : String)
    (target key c : List Char) (v : ℚ)
    (hnum : ∀ r ∈ catRows wb s, isNumCell (wb.cells s r 1) = false) :
    catGo wb s target (some key) (some c) (some v) (catRows wb s)
        Option.none =
      (match (annotateSections wb s (catRows wb s) Option.none).find?
          (rowIsMatch wb s target key) with
       | some p => setCell wb s p.1 (get_column_index c + 1) (CellValue.num v)
       | Option.none => wb, Option.none) ∧
    normalize_product_name (.str ("3号".toList))
      = normalize_product_name (.str ("3".toList)) ∧
    normalize_product_name (.str ("3号".toList))
      ≠ normalize_product_name (.str ("03".toList)) :=
  ⟨catGo_eq_find wb s target key c v (catRows wb s) Option.none hnum,
    by decide, by decide⟩

/-- Witness for `c7_categorical_lookup` on a concrete sheet: section `A`
starts at row 3, row 4 holds pump `3号` with an empty marker, section `B`
starts at row 5 with another `3号`; the update with section `A` and key `3`
writes into row 4 (the first match inside section `A`) and nowhere else. -/
theorem c7_categorical_lookup_witness :
    (∀ r ∈ catRows wbCat ("调价前"),
      isNumCell (wbCat.cells ("调价前") r 1) = false) ∧
    catGo wbCat ("调价前") ("A".toList) (some ("3".toList)) (some ['C'])
        (some 2) (catRows wbCat ("调价前")) Option.none =
      (setCell wbCat ("调价前") 4 (get_column_index ['C'] + 1)
        (CellValue.num 2), Option.none) := by
  refine ⟨by decide, ?_⟩
  have h := (c7_categorical_lookup wbCat ("调价前") ("A".toList) ("3".toList)
    ['C'] 2 (by decide)).1
  rw [show (annotateSections wbCat ("调价前") (catRows wbCat ("调价前"))
      Option.none).find? (rowIsMatch wbCat ("调价前") ("A".toList)
      ("3".toList)) = some (4, some ("A".toList)) from by decide] at h
  exact h

/-! ## Claim C2: supporting lemmas -/

theorem setCell_cells_ne (wb : Workbook) (s0 : String) (r0 c0 : Int)
    (v : CellValue) (s : String) (r c : Int)
    (h : ¬(s = s0 ∧ r = r0 ∧ c = c0)) :
    (setCell wb s0 r0 c0 v).cells s r c = wb.cells s r c := by
  simp only [setCell, if_neg h]

theorem getLast?_cons_cases {α : Type} :
    ∀ (l : List α) (a : α),
    (a :: l).getLast? =
      (match l.getLast? with
       | some x => some x
       | Option.none => some a) := by
  intro l
  induction l with
  | nil => intro a; rfl
  | cons b t ih =>
    intro a
    rw [List.getLast?_cons_cons]
    rcases h : (b :: t).getLast? with _ | x
    · rw [ih b] at h
      rcases ht : t.getLast? with _ | y <;> rw [ht] at h <;> simp at h
    · rfl

theorem seqFold_map {α β : Type} (f : EState → β → EState × Option String)
    (g : α → β) (l : List α) :
    ∀ st : EState,
      seqFold f st (l.map g) = seqFold (fun st a => f st (g a)) st l := by
  induction l with
  | nil => intro st; rfl
  | cons a as ih =>
    intro st
    show seqFold f st (g a :: as.map g) = _
    simp only [seqFold]
    rcases h : f st (g a) with ⟨st', err⟩
    cases err with
    | none => exact ih st'
    | some e => rfl

theorem cellStep_complete_ok (s : String) (st : EState) (r0 : Int)
    (c0 : List Char) (v0 : ℚ) :
    (cellStep s st ⟨some r0, some c0, some v0⟩).2 = Option.none := by
  unfold cellStep
  dsimp only
  split <;> rfl

theorem cellStep_sheetnames (x : String) (st : EState) (e : SubUpdate) :
    ((cellStep x st e).1).wb.sheetnames = st.wb.sheetnames := by
  rcases e with ⟨r, c, v⟩
  rcases r with _ | r <;> rcases c with _ | c <;> rcases v with _ | v <;>
    try rfl
  unfold cellStep
  dsimp only
  split
  · cases hl : lookupFees st.fees (r, get_column_index c + 1) <;>
      simp [hl, setCell]
  · rfl

theorem seqFold_cellStep_sheetnames (x : String) :
    ∀ (subs : List SubUpdate) (st : EState),
    ((seqFold (cellStep x) st subs).1).wb.sheetnames = st.wb.sheetnames := by
  intro subs
  induction subs with
  | nil => intro st; rfl
  | cons e es ih =>
    intro st
    simp only [seqFold]
    have hs := cellStep_sheetnames x st e
    rcases h : cellStep x st e with ⟨st', err⟩
    rw [h] at hs
    cases err with
    | none => rw [ih st']; exact hs
    | some e' => exact hs

theorem seqFold_cellStep_ok (x : String) :
    ∀ (subs : List SubUpdate) (st : EState),
    (∀ e ∈ subs, (e.row).isSome = true ∧ (e.column).isSome = true ∧
      (e.value).isSome = true) →
    (seqFold (cellStep x) st subs).2 = Option.none := by
  intro subs
  induction subs with
  | nil => intro st _; rfl
  | cons e es ih =>
    intro st hc
    obtain ⟨hr, hcl, hv⟩ := hc e (List.mem_cons_self e es)
    obtain ⟨r0, er⟩ := Option.isSome_iff_exists.mp hr
    obtain ⟨c0, ec⟩ := Option.isSome_iff_exists.mp hcl
    obtain ⟨v0, ev⟩ := Option.isSome_iff_exists.mp hv
    have he : e = ⟨some r0, some c0, some v0⟩ := by
      rcases e with ⟨a, b, d⟩
      simp only at er ec ev
      rw [er, ec, ev]
    simp only [seqFold]
    have hok := cellStep_complete_ok x st r0 c0 v0
    rcases h : cellStep x st ⟨some r0, some c0, some v0⟩ with ⟨st', err⟩
    rw [h] at hok
    rw [he, h]
    simp only at hok
    subst hok
    exact ih st' fun e' h' => hc e' (List.mem_cons_of_mem e h')

theorem seqFold_applyStep_flat (wb : Workbook) :
    ∀ (us : List UpdateDict) (st : EState),
    st.wb.sheetnames = wb.sheetnames →
    cellBatchWF wb us →
    seqFold applyStep st us = seqFold pairCellStep st (flatCells us) := by
  intro us
  induction us with
  | nil => intro st _ _; rfl
  | cons u rest ih =>
    intro st hsn hwf
    obtain ⟨hs, hpr, hmem, hsec, hpn, hup, hsubs⟩ :=
      hwf u (List.mem_cons_self u rest)
    obtain ⟨x, hx⟩ := Option.isSome_iff_exists.mp hs
    obtain ⟨subs, hsx⟩ := Option.isSome_iff_exists.mp hup
    have hgd : (u.sheet).getD ("") = x := by rw [hx]; rfl
    have hgdu : (u.updates).getD [] = subs := by rw [hsx]; rfl
    rw [hgd] at hpr hmem
    rw [hgdu] at hsubs
    have hmem' : x ∈ st.wb.sheetnames := by rw [hsn]; exact hmem
    have hval : validate_update st.wb u = Option.none := by
      unfold validate_update
      rw [hx]
      have hall : subs.all
          (fun e => (e.row).isSome && (e.column).isSome && (e.value).isSome)
          = true := by
        rw [List.all_eq_true]
        intro e he
        obtain ⟨h1, h2, h3⟩ := hsubs e he
        simp [h1, h2, h3]
      rcases hpr with h | h <;> rw [h] at hmem' ⊢ <;>
        simp [hmem', hpn, hsx, hall]
    have hstep : applyStep st u = seqFold (cellStep x) st subs := by
      unfold applyStep
      rw [hval]
      dsimp only
      rw [hgd, if_pos hpr, hsec, hsx]
    have hok := seqFold_cellStep_ok x subs st hsubs
    have hflat : flatCells (u :: rest)
        = (subs.map fun e => (x, e)) ++ flatCells rest := by
      simp only [flatCells, List.flatMap_cons]
      rw [hgdu, hgd]
    rw [hflat, seqFold_append]
    have hmapped : seqFold pairCellStep st (subs.map fun e => (x, e))
        = seqFold (cellStep x) st subs := by
      rw [seqFold_map]
      rfl
    rw [hmapped]
    simp only [seqFold]
    rcases h2 : seqFold (cellStep x) st subs with ⟨st1, err⟩
    rw [h2] at hok
    simp only at hok
    subst hok
    rw [hstep, h2]
    have hsn1 : st1.wb.sheetnames = wb.sheetnames := by
      have hin := seqFold_cellStep_sheetnames x subs st
      rw [h2] at hin
      simp only at hin
      rw [hin, hsn]
    exact ih st1 hsn1 (fun u' h' => hwf u' (List.mem_cons_of_mem u h'))


/-- The behaviour of a flattened batch of row/column writes, characterized by
one pass over the list: no exception, the accumulating cell holds the prior
accumulator plus the sum of the batch's fee writes, the `handling_fees` dict
mirrors it, and every other cell holds its last write (or its prior value).
`sig` abstracts the accumulator state on entry. -/
theorem cellFold_characterization :
    ∀ (l : List (String × SubUpdate)) (st : EState) (sig : Option ℚ),
    (∀ p ∈ l, ((p.2).row).isSome = true ∧ ((p.2).column).isSome = true ∧
      ((p.2).value).isSome = true) →
    (∀ p ∈ l, ((p.2).row = some 81 ∧
        get_column_index (((p.2).column).getD []) + 1 = 5) →
      p.1 = "调价前" ∧ (p.2).column = some ['E']) →
    st.fees = (match sig with
      | Option.none => []
      | some a => [((81, 5), a)]) →
    (∀ a, sig = some a → st.wb.cells ("调价前") 81 5 = CellValue.num a) →
    (seqFold pairCellStep st l).2 = Option.none ∧
    ((seqFold pairCellStep st l).1).wb.cells ("调价前") 81 5 =
      (if feeValues l = [] then st.wb.cells ("调价前") 81 5
       else CellValue.num (sig.getD 0 + (feeValues l).sum)) ∧
    ((seqFold pairCellStep st l).1).fees =
      (match (if feeValues l = [] then sig
          else some (sig.getD 0 + (feeValues l).sum)) with
       | Option.none => []
       | some a => [((81, 5), a)]) ∧
    (∀ (s : String) (r ci : Int), ¬(r = 81 ∧ ci = 5) →
      ((seqFold pairCellStep st l).1).wb.cells s r ci =
        (match (l.filter (targetsCell s r ci)).getLast? with
         | some p => CellValue.num (((p.2).value).getD 0)
         | Option.none => st.wb.cells s r ci)) := by
  intro l
  induction l with
  | nil =>
    intro st sig _ _ hfees _
    refine ⟨rfl, ?_, by simpa [feeValues] using hfees, ?_⟩
    · rw [if_pos (by decide : feeValues ([] : List (String × SubUpdate)) = [])]
      rfl
    · intro s r ci _
      rfl
  | cons p l' ih =>
    intro st sig hcomp h2 hfees hcell
    obtain ⟨hr, hcl, hv⟩ := hcomp p (List.mem_cons_self p l')
    obtain ⟨r0, er⟩ := Option.isSome_iff_exists.mp hr
    obtain ⟨c0, ec⟩ := Option.isSome_iff_exists.mp hcl
    obtain ⟨v0, ev⟩ := Option.isSome_iff_exists.mp hv
    rcases p with ⟨s0, e⟩
    simp only at er ec ev
    have he : e = ⟨some r0, some c0, some v0⟩ := by
      rcases e with ⟨a, b, d⟩
      simp only at er ec ev
      rw [er, ec, ev]
    subst he
    have hcomp' : ∀ p ∈ l', ((p.2).row).isSome = true ∧
        ((p.2).column).isSome = true ∧ ((p.2).value).isSome = true :=
      fun q h => hcomp q (List.mem_cons_of_mem _ h)
    have h2' : ∀ p ∈ l', ((p.2).row = some 81 ∧
        get_column_index (((p.2).column).getD []) + 1 = 5) →
      p.1 = "调价前" ∧ (p.2).column = some ['E'] :=
      fun q h => h2 q (List.mem_cons_of_mem _ h)
    have hci : (get_column_index ['E'] + 1 : Int) = 5 := by decide
    by_cases hfee : r0 = 81 ∧ c0 = ['E']
    · obtain ⟨h81, hE⟩ := hfee
      subst h81
      subst hE
      have hs0 : s0 = "调价前" :=
        (h2 (s0, ⟨some 81, some ['E'], some v0⟩)
          (List.mem_cons_self _ _) ⟨rfl, hci⟩).1
      subst hs0
      have hfv : feeValues ((("调价前" : String),
          (⟨some 81, some ['E'], some v0⟩ : SubUpdate)) :: l')
          = v0 :: feeValues l' := by
        simp [feeValues, isFeeSub]
      rcases sig with _ | a
      · -- first fee write in the batch
        have hstepcell : pairCellStep st (("调价前" : String),
            (⟨some 81, some ['E'], some v0⟩ : SubUpdate)) =
            (⟨setCell (setCell st.wb ("调价前") 81 5 CellValue.none)
              ("调价前") 81 5 (CellValue.num v0), [((81, 5), v0)]⟩,
              Option.none) := by
          show cellStep ("调价前") st ⟨some 81, some ['E'], some v0⟩ = _
          simp [cellStep, hci, hfees, lookupFees, insertFees]
        have hrun : seqFold pairCellStep st ((("调价前" : String),
            (⟨some 81, some ['E'], some v0⟩ : SubUpdate)) :: l') =
            seqFold pairCellStep
              ⟨setCell (setCell st.wb ("调价前") 81 5 CellValue.none)
                ("调价前") 81 5 (CellValue.num v0), [((81, 5), v0)]⟩ l' := by
          simp only [seqFold, hstepcell]
        have hcellN : ∀ a, (some v0 : Option ℚ) = some a →
            (⟨setCell (setCell st.wb ("调价前") 81 5 CellValue.none)
              ("调价前") 81 5 (CellValue.num v0),
              [((81, 5), v0)]⟩ : EState).wb.cells ("调价前") 81 5
            = CellValue.num a := by
          intro a ha
          cases Option.some.inj ha
          show (setCell _ ("调价前") 81 5
            (CellValue.num v0)).cells ("调价前") 81 5 = _
          simp [setCell]
        obtain ⟨ihe, ihcl, ihf, iho⟩ := ih
          ⟨setCell (setCell st.wb ("调价前") 81 5 CellValue.none)
            ("调价前") 81 5 (CellValue.num v0), [((81, 5), v0)]⟩
          (some v0) hcomp' h2' (by rfl) hcellN
        rw [hrun]
        refine ⟨ihe, ?_, ?_, ?_⟩
        · rw [ihcl, hfv, if_neg (List.cons_ne_nil v0 (feeValues l'))]
          by_cases hfl : feeValues l' = []
          · rw [if_pos hfl, hfl]
            show (setCell _ ("调价前") 81 5
              (CellValue.num v0)).cells ("调价前") 81 5 = _
            simp [setCell]
          · rw [if_neg hfl]
            exact congrArg CellValue.num (by simp [List.sum_cons])
        · rw [ihf, hfv, if_neg (List.cons_ne_nil v0 (feeValues l'))]
          by_cases hfl : feeValues l' = []
          · rw [if_pos hfl, hfl]
            simp
          · rw [if_neg hfl]
            simp only [List.sum_cons, Option.getD_some, Option.getD_none]
            have : (v0 + (feeValues l').sum : ℚ)
                = 0 + (v0 + (feeValues l').sum) := by ring
            rw [← this]
        · intro s r ci hne
          rw [iho s r ci hne]
          have htg : targetsCell s r ci (("调价前" : String),
              (⟨some 81, some ['E'], some v0⟩ : SubUpdate)) = false := by
            by_contra hcon
            rw [Bool.not_eq_false] at hcon
            simp only [targetsCell, Bool.and_eq_true, decide_eq_true_eq,
              Option.getD_some, Option.some.injEq] at hcon
            exact hne ⟨hcon.1.2.symm, by rw [← hcon.2, hci]⟩
          simp only [List.filter_cons, htg, Bool.false_eq_true, if_false]
          have hnx : ¬(s = "调价前" ∧ r = 81 ∧ ci = 5) :=
            fun h => hne ⟨h.2.1, h.2.2⟩
          rcases (l'.filter (targetsCell s r ci)).getLast? with _ | q
          · show (setCell (setCell st.wb ("调价前") 81 5 CellValue.none)
                ("调价前") 81 5 (CellValue.num v0)).cells s r ci
              = st.wb.cells s r ci
            rw [setCell_cells_ne _ _ _ _ _ _ _ _ hnx,
              setCell_cells_ne _ _ _ _ _ _ _ _ hnx]
          · rfl
      · -- subsequent fee write in the batch
        have hstepcell : pairCellStep st (("调价前" : String),
            (⟨some 81, some ['E'], some v0⟩ : SubUpdate)) =
            (⟨setCell st.wb ("调价前") 81 5 (CellValue.num (a + v0)),
              [((81, 5), a + v0)]⟩, Option.none) := by
          show cellStep ("调价前") st ⟨some 81, some ['E'], some v0⟩ = _
          simp [cellStep, hci, hfees, lookupFees, insertFees]
        have hrun : seqFold pairCellStep st ((("调价前" : String),
            (⟨some 81, some ['E'], some v0⟩ : SubUpdate)) :: l') =
            seqFold pairCellStep ⟨setCell st.wb ("调价前") 81 5
              (CellValue.num (a + v0)), [((81, 5), a + v0)]⟩ l' := by
          simp only [seqFold, hstepcell]
        have hcellN : ∀ b, (some (a + v0) : Option ℚ) = some b →
            (⟨setCell st.wb ("调价前") 81 5 (CellValue.num (a + v0)),
              [((81, 5), a + v0)]⟩ : EState).wb.cells ("调价前") 81 5
            = CellValue.num b := by
          intro b hb
          cases Option.some.inj hb
          show (setCell st.wb ("调价前") 81 5
            (CellValue.num (a + v0))).cells ("调价前") 81 5 = _
          simp [setCell]
        obtain ⟨ihe, ihcl, ihf, iho⟩ := ih
          ⟨setCell st.wb ("调价前") 81 5 (CellValue.num (a + v0)),
            [((81, 5), a + v0)]⟩ (some (a + v0)) hcomp' h2' (by rfl) hcellN
        rw [hrun]
        refine ⟨ihe, ?_, ?_, ?_⟩
        · rw [ihcl, hfv, if_neg (List.cons_ne_nil v0 (feeValues l'))]
          by_cases hfl : feeValues l' = []
          · rw [if_pos hfl, hfl]
            show (setCell st.wb ("调价前") 81 5
              (CellValue.num (a + v0))).cells ("调价前") 81 5 = _
            rw [show (setCell st.wb ("调价前") 81 5
              (CellValue.num (a + v0))).cells ("调价前") 81 5
              = CellValue.num (a + v0) from by simp [setCell]]
            exact congrArg CellValue.num (by simp [List.sum_cons])
          · rw [if_neg hfl]
            exact congrArg CellValue.num
              (by simp only [List.sum_cons, Option.getD_some]; ring)
        · rw [ihf, hfv, if_neg (List.cons_ne_nil v0 (feeValues l'))]
          by_cases hfl : feeValues l' = []
          · rw [if_pos hfl, hfl]
            simp [List.sum_cons]
          · rw [if_neg hfl]
            simp only [List.sum_cons, Option.getD_some]
            have hq : (a + v0 + (feeValues l').sum : ℚ)
                = a + (v0 + (feeValues l').sum) := by ring
            rw [hq]
        · intro s r ci hne
          rw [iho s r ci hne]
          have htg : targetsCell s r ci (("调价前" : String),
              (⟨some 81, some ['E'], some v0⟩ : SubUpdate)) = false := by
            by_contra hcon
            rw [Bool.not_eq_false] at hcon
            simp only [targetsCell, Bool.and_eq_true, decide_eq_true_eq,
              Option.getD_some, Option.some.injEq] at hcon
            exact hne ⟨hcon.1.2.symm, by rw [← hcon.2, hci]⟩
          simp only [List.filter_cons, htg, Bool.false_eq_true, if_false]
          have hnx : ¬(s = "调价前" ∧ r = 81 ∧ ci = 5) :=
            fun h => hne ⟨h.2.1, h.2.2⟩
          rcases (l'.filter (targetsCell s r ci)).getLast? with _ | q
          · show (setCell st.wb ("调价前") 81 5
                (CellValue.num (a + v0))).cells s r ci = st.wb.cells s r ci
            rw [setCell_cells_ne _ _ _ _ _ _ _ _ hnx]
          · rfl
    · -- plain overwrite branch
      have hne2 : ¬(r0 = 81 ∧ get_column_index c0 + 1 = 5) := by
        intro h
        have hc := h2 (s0, ⟨some r0, some c0, some v0⟩)
          (List.mem_cons_self _ _) ⟨by rw [h.1], by simpa using h.2⟩
        exact hfee ⟨h.1, Option.some.inj hc.2⟩
      have hnn : ¬(("调价前" : String) = s0 ∧ (81 : Int) = r0 ∧
          (5 : Int) = get_column_index c0 + 1) :=
        fun h => hne2 ⟨h.2.1.symm, h.2.2.symm⟩
      have hstepcell : pairCellStep st ((s0 : String),
          (⟨some r0, some c0, some v0⟩ : SubUpdate)) =
          (⟨setCell st.wb s0 r0 (get_column_index c0 + 1) (CellValue.num v0),
            st.fees⟩, Option.none) := by
        show cellStep s0 st ⟨some r0, some c0, some v0⟩ = _
        unfold cellStep
        dsimp only
        rw [if_neg hfee]
      have hrun : seqFold pairCellStep st (((s0 : String),
          (⟨some r0, some c0, some v0⟩ : SubUpdate)) :: l') =
          seqFold pairCellStep ⟨setCell st.wb s0 r0
            (get_column_index c0 + 1) (CellValue.num v0), st.fees⟩ l' := by
        simp only [seqFold, hstepcell]
      have hcellN : ∀ b, sig = some b →
          (⟨setCell st.wb s0 r0 (get_column_index c0 + 1) (CellValue.num v0),
            st.fees⟩ : EState).wb.cells ("调价前") 81 5 = CellValue.num b := by
        intro b hb
        show (setCell st.wb s0 r0 (get_column_index c0 + 1)
          (CellValue.num v0)).cells ("调价前") 81 5 = _
        rw [setCell_cells_ne _ _ _ _ _ _ _ _ hnn]
        exact hcell b hb
      obtain ⟨ihe, ihcl, ihf, iho⟩ := ih
        ⟨setCell st.wb s0 r0 (get_column_index c0 + 1) (CellValue.num v0),
          st.fees⟩ sig hcomp' h2' hfees hcellN
      have hfv : feeValues (((s0 : String),
          (⟨some r0, some c0, some v0⟩ : SubUpdate)) :: l') = feeValues l' := by
        have hfs : isFeeSub (s0, (⟨some r0, some c0, some v0⟩ : SubUpdate))
            = false := by
          by_contra hcon
          rw [Bool.not_eq_false] at hcon
          simp only [isFeeSub, Bool.and_eq_true, decide_eq_true_eq,
            Option.some.injEq] at hcon
          exact hfee ⟨hcon.1, hcon.2⟩
        simp [feeValues, List.filter_cons, hfs]
      rw [hrun]
      refine ⟨ihe, ?_, ?_, ?_⟩
      · rw [ihcl, hfv]
        have hcc : (⟨setCell st.wb s0 r0 (get_column_index c0 + 1)
            (CellValue.num v0), st.fees⟩ : EState).wb.cells ("调价前") 81 5
            = st.wb.cells ("调价前") 81 5 := by
          show (setCell st.wb s0 r0 (get_column_index c0 + 1)
            (CellValue.num v0)).cells ("调价前") 81 5 = _
          exact setCell_cells_ne _ _ _ _ _ _ _ _ hnn
        rw [hcc]
      · rw [ihf, hfv]
      · intro s r ci hne
        rw [iho s r ci hne]
        by_cases htg : targetsCell s r ci ((s0 : String),
            (⟨some r0, some c0, some v0⟩ : SubUpdate)) = true
        · simp only [List.filter_cons, htg, if_true]
          have htg' := htg
          simp only [targetsCell, Bool.and_eq_true, decide_eq_true_eq,
            Option.getD_some, Option.some.injEq] at htg'
          obtain ⟨⟨hts, htr⟩, htc⟩ := htg'
          subst hts
          subst htr
          subst htc
          rw [getLast?_cons_cases]
          rcases (l'.filter (targetsCell s0 r0
              (get_column_index c0 + 1))).getLast? with _ | q
          · show (setCell st.wb s0 r0 (get_column_index c0 + 1)
              (CellValue.num v0)).cells s0 r0 (get_column_index c0 + 1)
              = CellValue.num ((some v0).getD 0)
            simp [setCell]
          · rfl
        · have htgf : targetsCell s r ci ((s0 : String),
              (⟨some r0, some c0, some v0⟩ : SubUpdate)) = false :=
            Bool.not_eq_true .. ▸ htg
          simp only [List.filter_cons, htgf, Bool.false_eq_true, if_false]
          have hnt : ¬(s = s0 ∧ r = r0 ∧ ci = get_column_index c0 + 1) := by
            intro hh
            exact htg (by simp [targetsCell, hh.1, hh.2.1, hh.2.2])
          rcases (l'.filter (targetsCell s r ci)).getLast? with _ | q
          · show (setCell st.wb s0 r0 (get_column_index c0 + 1)
              (CellValue.num v0)).cells s r ci = st.wb.cells s r ci
            exact setCell_cells_ne _ _ _ _ _ _ _ _ hnt
          · rfl

/-- Claim C2 as amended: the accumulation special case fires on the literal
column string `'E'` at row 81 of either pricing sheet, with a single
accumulator keyed by `(row, column)` only — shared across `调价前` and
`调价后` (see `c2_counterexample`).  For batches of row/column instructions in
which every write addressing the physical cell `(81, 5)` is spelled `'E'`
and targets `调价前`, `apply_updates` raises nothing, the `调价前` row-81-E
cell ends at the sum of all values written to it in the batch (the first such
write clears any prior value; no write leaves it untouched), and every cell
other than physical `(row 81, column 5)` is last-write-wins: its final value
is the value of the last instruction of the batch targeting it, or its
original value when none does. -/
theorem c2_fee_accumulation (wb : Workbook) (us : List UpdateDict)
    (h1 : cellBatchWF wb us) (h2 : feeWritesCanonical us) :
    (apply_updates wb us).2 = Option.none ∧
    (feeValues (flatCells us) = [] →
      (apply_updates wb us).1.wb.cells ("调价前") 81 5
        = wb.cells ("调价前") 81 5) ∧
    (feeValues (flatCells us) ≠ [] →
      (apply_updates wb us).1.wb.cells ("调价前") 81 5
        = CellValue.num ((feeValues (flatCells us)).sum)) ∧
    (∀ (s : String) (r ci : Int), ¬(r = 81 ∧ ci = 5) →
      (apply_updates wb us).1.wb.cells s r ci =
        (match ((flatCells us).filter (targetsCell s r ci)).getLast? with
         | some p => CellValue.num (((p.2).value).getD 0)
         | Option.none => wb.cells s r ci)) := by
  have hcomp : ∀ p ∈ flatCells us, ((p.2).row).isSome = true ∧
      ((p.2).column).isSome = true ∧ ((p.2).value).isSome = true := by
    intro p hp
    rw [flatCells, List.mem_flatMap] at hp
    obtain ⟨u, hu, hp2⟩ := hp
    rw [List.mem_map] at hp2
    obtain ⟨e, he, hpe⟩ := hp2
    obtain ⟨_, _, _, _, _, _, hsubs⟩ := h1 u hu
    have hx := hsubs e he
    rw [← hpe]
    exact hx
  have hflat := seqFold_applyStep_flat wb us ⟨wb, []⟩ rfl h1
  have hchar := cellFold_characterization (flatCells us) ⟨wb, []⟩ Option.none
    hcomp h2 rfl (by intro a h; cases h)
  rw [apply_updates, hflat]
  obtain ⟨he, hcl, _, hoth⟩ := hchar
  refine ⟨he, ?_, ?_, hoth⟩
  · intro hfv
    rw [hcl, if_pos hfv]
  · intro hfv
    rw [hcl, if_neg hfv]
    simp

/-- Witness for `c2_fee_accumulation`: fee writes `1.60`, `3.00`, `0.50`
accumulate to `5.10` at the designated cell, an interleaved ordinary write
lands by last-write-wins, and no error is raised. -/
theorem c2_fee_accumulation_witness :
    cellBatchWF wb0 usFee ∧ feeWritesCanonical usFee ∧
    (apply_updates wb0 usFee).1.wb.cells ("调价前") 81 5
      = CellValue.num 5.1 ∧
    (apply_updates wb0 usFee).1.wb.cells ("调价前") 1 1 = CellValue.num 9 ∧
    (apply_updates wb0 usFee).2 = Option.none := by
  have h1 : cellBatchWF wb0 usFee := by
    unfold cellBatchWF
    decide
  have h2 : feeWritesCanonical usFee := by
    unfold feeWritesCanonical
    decide
  obtain ⟨he, _, hsum, hoth⟩ := c2_fee_accumulation wb0 usFee h1 h2
  refine ⟨h1, h2, ?_, ?_, he⟩
  · rw [hsum (by decide)]
    rw [show feeValues (flatCells usFee) = [1.6, 3, 0.5] from rfl]
    exact congrArg CellValue.num (by norm_num [List.sum_cons])
  · rw [hoth ("调价前") 1 1 (by decide)]
    rw [show ((flatCells usFee).filter
        (targetsCell ("调价前") 1 1)).getLast?
      = some (("调价前" : String),
        (⟨some 1, some ['A'], some 9⟩ : SubUpdate)) from rfl]
    rfl

/-! ## Claim C5: supporting lemmas on the regex model -/

theorem takeWhile_append_all (p : Char → Bool) :
    ∀ (j z : List Char), (∀ c ∈ j, p c = true) →
    (j ++ z).takeWhile p = j ++ z.takeWhile p := by
  intro j
  induction j with
  | nil => intro z _; rfl
  | cons c cs ih =>
    intro z hj
    rw [List.cons_append, List.takeWhile_cons, hj c (List.mem_cons_self c cs)]
    rw [ih z (fun c h => hj c (List.mem_cons_of_mem _ h))]
    rfl

theorem dropWhile_append_all (p : Char → Bool) :
    ∀ (j z : List Char), (∀ c ∈ j, p c = true) →
    (j ++ z).dropWhile p = z.dropWhile p := by
  intro j
  induction j with
  | nil => intro z _; rfl
  | cons c cs ih =>
    intro z hj
    rw [List.cons_append, List.dropWhile_cons, hj c (List.mem_cons_self c cs)]
    exact ih z (fun c h => hj c (List.mem_cons_of_mem _ h))

theorem dtc_all_commas (l : List Char) (h : ∀ c ∈ l, c = ',') :
    dropTrailingCommas l = [] := by
  unfold dropTrailingCommas
  have : l.reverse.dropWhile (fun c => c = ',') = [] := by
    rw [List.dropWhile_eq_nil_iff]
    intro c hc
    simp [h c (List.mem_reverse.mp hc)]
  rw [this]
  rfl

theorem dtc_last_not_comma (l : List Char) (ch : Char)
    (h : l.getLast? = some ch) (hch : ch ≠ ',') :
    dropTrailingCommas l = l ∧ trailingCommas l = [] := by
  have hrev : l.reverse.head? = some ch := by
    rw [List.head?_reverse]
    exact h
  rcases hr : l.reverse with _ | ⟨c, t⟩
  · rw [hr] at hrev
    cases hrev
  · rw [hr] at hrev
    have hceq : c = ch := by injection hrev
    subst hceq
    constructor
    · unfold dropTrailingCommas
      rw [hr, List.dropWhile_cons,
        if_neg (by simp [hch] : ¬(decide (c = ',') = true))]
      rw [← hr, List.reverse_reverse]
    · unfold trailingCommas
      rw [hr, List.takeWhile_cons,
        if_neg (by simp [hch] : ¬(decide (c = ',') = true))]
      rfl

theorem matchUnsigned_commas_core (tok j : List Char) (htok : NumCore tok)
    (hj : ∀ c ∈ j, c = ',') :
    matchUnsigned (j ++ tok) = some (j ++ tok, []) := by
  have hjDC : ∀ c ∈ j, isDC c = true := by
    intro c hc
    simp [isDC, hj c hc]
  rcases htok with ⟨r, dd, htokeq, hr, hdne, hd⟩ | ⟨hne, hall, ch, hlast, hdig⟩
  · subst htokeq
    have hjr : ∀ c ∈ j ++ r, isDC c = true := by
      intro c hc
      rcases List.mem_append.mp hc with h | h
      · exact hjDC c h
      · exact hr c h
    have hts : (j ++ (r ++ '.' :: dd)).takeWhile isDC = j ++ r := by
      rw [← List.append_assoc, takeWhile_append_all isDC (j ++ r) _ hjr,
        List.takeWhile_cons, if_neg (by decide : ¬(isDC '.' = true))]
      rw [List.append_nil]
    have hds : (j ++ (r ++ '.' :: dd)).dropWhile isDC = '.' :: dd := by
      rw [← List.append_assoc, dropWhile_append_all isDC (j ++ r) _ hjr,
        List.dropWhile_cons, if_neg (by decide : ¬(isDC '.' = true))]
    have htd : dd.takeWhile Char.isDigit = dd := by
      have hx := takeWhile_append_all Char.isDigit dd [] hd
      simpa using hx
    have hdd : dd.dropWhile Char.isDigit = [] := by
      have hx := dropWhile_append_all Char.isDigit dd [] hd
      simpa using hx
    unfold matchUnsigned
    rw [hts, hds]
    dsimp only
    split
    · rename_i rest2 heq
      injection heq with h1 h2
      subst h2
      rw [htd, hdd, if_neg hdne, List.append_assoc]
    · rename_i hcontra
      exact ((hcontra dd) rfl).elim
  · have hallDC : ∀ c ∈ j ++ tok, isDC c = true := by
      intro c hc
      rcases List.mem_append.mp hc with h | h
      · exact hjDC c h
      · exact hall c h
    have hts : (j ++ tok).takeWhile isDC = j ++ tok := by
      have hx := takeWhile_append_all isDC (j ++ tok) [] hallDC
      simpa using hx
    have hds : (j ++ tok).dropWhile isDC = [] := by
      have hx := dropWhile_append_all isDC (j ++ tok) [] hallDC
      simpa using hx
    have hch : ch ≠ ',' := by
      intro heq
      rw [heq] at hdig
      exact absurd hdig (by decide)
    obtain ⟨hdtc, htc⟩ := dtc_last_not_comma (j ++ tok) ch
      (by rw [List.getLast?_append_of_ne_nil _ hne]; exact hlast) hch
    unfold matchUnsigned
    rw [hts, hds]
    dsimp only
    rw [hdtc, htc, if_neg (by simp [hne] : ¬(j ++ tok = []))]
    rfl

theorem matchUnsigned_junk_none (j : List Char) (x : Char) (rest : List Char)
    (hj : ∀ c ∈ j, c = ',') (hx : isDC x = false) (hdot : x ≠ '.') :
    matchUnsigned (j ++ x :: rest) = Option.none := by
  have hjDC : ∀ c ∈ j, isDC c = true := by
    intro c hc
    simp [isDC, hj c hc]
  have hts : (j ++ x :: rest).takeWhile isDC = j := by
    rw [takeWhile_append_all isDC j _ hjDC, List.takeWhile_cons,
      if_neg (by simp [hx] : ¬(isDC x = true))]
    rw [List.append_nil]
  have hds : (j ++ x :: rest).dropWhile isDC = x :: rest := by
    rw [dropWhile_append_all isDC j _ hjDC, List.dropWhile_cons,
      if_neg (by simp [hx] : ¬(isDC x = true))]
  have hdtc : dropTrailingCommas j = [] := dtc_all_commas j hj
  unfold matchUnsigned
  rw [hts, hds]
  dsimp only
  split
  · rename_i rest2 heq
    have hx2 : x = '.' := by injection heq
    exact absurd hx2 hdot
  · rw [hdtc, if_pos rfl]

theorem NumCore_ne_nil (tok : List Char) (h : NumCore tok) : tok ≠ [] := by
  rcases h with ⟨r, dd, heq, _, _, _⟩ | ⟨hne, _, _⟩
  · subst heq
    simp
  · exact hne

theorem NumCore_no_sign (tok : List Char) (h : NumCore tok) :
    ∀ c ∈ tok, c ≠ '-' ∧ c ≠ '+' := by
  rcases h with ⟨r, dd, heq, hr, _, hd⟩ | ⟨_, hall, _⟩
  · subst heq
    intro c hc
    rcases List.mem_append.mp hc with h | h
    · have hx := hr c h
      constructor <;> intro heq2 <;> subst heq2 <;> simp [isDC] at hx
    · rcases List.mem_cons.mp h with h | h
      · subst h
        exact ⟨by decide, by decide⟩
      · have hx := hd c h
        constructor <;> intro heq2 <;> subst heq2 <;> simp at hx
  · intro c hc
    have hx := hall c hc
    constructor <;> intro heq2 <;> subst heq2 <;> simp [isDC] at hx

theorem matchAt_token (tok : List Char) (h : NumToken tok) :
    matchAt tok = some (tok, []) := by
  rcases h with hcore | ⟨c, r, hsign, hcore, heq⟩
  · have hmu := matchUnsigned_commas_core tok [] hcore
      (by intro c hc; cases hc)
    simp only [List.nil_append] at hmu
    have hne : tok ≠ [] := NumCore_ne_nil tok hcore
    obtain ⟨c, t, rfl⟩ : ∃ c t, tok = c :: t := by
      cases tok with
      | nil => exact absurd rfl hne
      | cons c t => exact ⟨c, t, rfl⟩
    obtain ⟨hc1, hc2⟩ := NumCore_no_sign _ hcore c (List.mem_cons_self c t)
    simp only [matchAt]
    rw [if_neg (by simp [hc1, hc2])]
    exact hmu
  · subst heq
    have hmu := matchUnsigned_commas_core r [] hcore
      (by intro c2 hc; cases hc)
    simp only [List.nil_append] at hmu
    simp only [matchAt]
    rw [if_pos hsign, hmu]

theorem filter_commas : ∀ (j z : List Char), (∀ c ∈ j, c = ',') →
    (j ++ z).filter (fun c => c ≠ ',') = z.filter (fun c => c ≠ ',') := by
  intro j
  induction j with
  | nil => intro z _; rfl
  | cons c cs ih =>
    intro z hj
    have hc : c = ',' := hj c (List.mem_cons_self c cs)
    subst hc
    rw [List.cons_append, List.filter_cons,
      if_neg (by decide : ¬(decide ((',' : Char) ≠ ',') = true))]
    exact ih z (fun x h => hj x (List.mem_cons_of_mem _ h))

theorem tokenToRat_no_sign (m : List Char)
    (h : ∀ c ∈ m, c ≠ '-' ∧ c ≠ '+') :
    tokenToRat m = coreVal (m.filter (fun c => c ≠ ',')) := by
  unfold tokenToRat
  rcases hf : m.filter (fun c => c ≠ ',') with _ | ⟨c, t⟩
  · rfl
  · have hmem : c ∈ m := by
      have hcf : c ∈ m.filter (fun c => c ≠ ',') := by
        rw [hf]
        exact List.mem_cons_self c t
      exact List.mem_of_mem_filter hcf
    obtain ⟨h1, h2⟩ := h c hmem
    split
    · rename_i r heq
      injection heq with hx _
      exact absurd hx h1
    · rename_i r heq
      injection heq with hx _
      exact absurd hx h2
    · rfl

theorem tokenToRat_commas_core (tok j : List Char) (htok : NumCore tok)
    (hj : ∀ c ∈ j, c = ',') :
    tokenToRat (j ++ tok) = tokenToRat tok := by
  have hns : ∀ c ∈ j ++ tok, c ≠ '-' ∧ c ≠ '+' := by
    intro c hc
    rcases List.mem_append.mp hc with h | h
    · have hcx := hj c h
      subst hcx
      exact ⟨by decide, by decide⟩
    · exact NumCore_no_sign tok htok c h
  rw [tokenToRat_no_sign _ hns,
    tokenToRat_no_sign _ (NumCore_no_sign tok htok), filter_commas j tok hj]

theorem tokenToRat_plus (tok j : List Char) (htok : NumCore tok)
    (hj : ∀ c ∈ j, c = ',') :
    tokenToRat ('+' :: (j ++ tok)) = tokenToRat tok := by
  rw [tokenToRat_no_sign tok (NumCore_no_sign tok htok)]
  show (match ('+' :: (j ++ tok)).filter (fun c => c ≠ ',') with
    | '-' :: r => - coreVal r
    | '+' :: r => coreVal r
    | r => coreVal r) = _
  rw [List.filter_cons,
    if_pos (by decide : decide (('+' : Char) ≠ ',') = true),
    filter_commas j tok hj]
  split
  · rename_i r heq
    injection heq with hx _
    exact absurd hx (by decide)
  · rename_i r heq
    injection heq with _ h2
    rw [h2]
  · rename_i hx1 hx2
    exact ((hx2 (List.filter (fun c => decide (c ≠ ',')) tok)) rfl).elim

theorem findallGo_nil : ∀ f, findallGo f [] = [] := by
  intro f
  cases f <;> rfl

theorem findall_token : ∀ (q tok : List Char), NumToken tok →
    (∀ c ∈ q, c.isDigit = false ∧ c ≠ '-' ∧ c ≠ '.') →
    ∃ m, findall (q ++ tok) = [m] ∧ tokenToRat m = tokenToRat tok := by
  intro q
  induction q with
  | nil =>
    intro tok htok _
    refine ⟨tok, ?_, rfl⟩
    simp only [List.nil_append]
    have hne : tok ≠ [] := by
      rcases htok with h | ⟨c, r, _, _, heq⟩
      · exact NumCore_ne_nil tok h
      · subst heq
        simp
    obtain ⟨c, t, rfl⟩ : ∃ c t, tok = c :: t := by
      cases tok with
      | nil => exact absurd rfl hne
      | cons c t => exact ⟨c, t, rfl⟩
    show findallGo ((c :: t).length) (c :: t) = [c :: t]
    rw [List.length_cons]
    simp only [findallGo]
    rw [matchAt_token _ htok]
    dsimp only
    rw [findallGo_nil]
  | cons c q' ih =>
    intro tok htok hq
    obtain ⟨hcd, hcm, hcdot⟩ := hq c (List.mem_cons_self c q')
    have hq' : ∀ x ∈ q', x.isDigit = false ∧ x ≠ '-' ∧ x ≠ '.' :=
      fun x h => hq x (List.mem_cons_of_mem _ h)
    have hstep : matchAt (c :: (q' ++ tok)) = Option.none →
        ∃ m, findall (c :: q' ++ tok) = [m] ∧
          tokenToRat m = tokenToRat tok := by
      intro hnone
      obtain ⟨m, hm, hv⟩ := ih tok htok hq'
      refine ⟨m, ?_, hv⟩
      show findallGo ((c :: (q' ++ tok)).length) (c :: (q' ++ tok)) = [m]
      rw [List.length_cons]
      simp only [findallGo]
      rw [hnone]
      exact hm
    have hsucc : ∀ m, matchAt (c :: (q' ++ tok)) = some (m, []) →
        tokenToRat m = tokenToRat tok →
        ∃ m', findall (c :: q' ++ tok) = [m'] ∧
          tokenToRat m' = tokenToRat tok := by
      intro m hsome hv
      refine ⟨m, ?_, hv⟩
      show findallGo ((c :: (q' ++ tok)).length) (c :: (q' ++ tok)) = [m]
      rw [List.length_cons]
      simp only [findallGo]
      rw [hsome]
      dsimp only
      rw [findallGo_nil]
    have hdec : ¬(∀ x ∈ q', x = ',') →
        ∃ j x restq, q' = j ++ x :: restq ∧ (∀ y ∈ j, y = ',') ∧
          isDC x = false ∧ x ≠ '.' := by
      intro hn
      have hsplit := List.takeWhile_append_dropWhile
        (p := fun y => decide (y = ',')) (l := q')
      rcases hdw : q'.dropWhile (fun y => decide (y = ',')) with _ | ⟨x, restq⟩
      · exact absurd (fun x hx => by
          simpa using List.dropWhile_eq_nil_iff.mp hdw x hx) hn
      · have hx1 : (x = ',') = False := by
          have hcd2 := List.head?_dropWhile_not
            (fun y => decide (y = ',')) q'
          rw [hdw] at hcd2
          simpa using hcd2
        have hxq : x ∈ q' := by
          have hsub := List.dropWhile_sublist
            (p := fun y => decide (y = ',')) (l := q')
          rw [hdw] at hsub
          exact hsub.mem (List.mem_cons_self x restq)
        refine ⟨q'.takeWhile (fun y => decide (y = ',')), x, restq, ?_, ?_,
          ?_, (hq' x hxq).2.2⟩
        · conv_lhs => rw [← hsplit, hdw]
        · intro y hy
          have := List.mem_takeWhile_imp hy
          simpa using this
        · have hxd := (hq' x hxq).1
          simp [isDC, hxd, hx1]
    by_cases hcp : c = '+'
    · subst hcp
      by_cases hall : ∀ x ∈ q', x = ','
      · rcases htok with hcore | ⟨σ, rr, hsign, hcore, heq⟩
        · have hmu := matchUnsigned_commas_core tok q' hcore hall
          apply hsucc ('+' :: (q' ++ tok))
          · simp only [matchAt]
            simp [hmu]
          · exact tokenToRat_plus tok q' hcore hall
        · subst heq
          apply hstep
          have hmu := matchUnsigned_junk_none q' σ rr hall
            (by rcases hsign with h | h <;> subst h <;> decide)
            (by rcases hsign with h | h <;> subst h <;> decide)
          simp only [matchAt]
          simp [hmu]
      · obtain ⟨j, x, restq, hq'eq, hjall, hxdc, hxdot⟩ := hdec hall
        have hmu2 : matchUnsigned (q' ++ tok) = Option.none := by
          rw [hq'eq, List.append_assoc, List.cons_append]
          exact matchUnsigned_junk_none j x (restq ++ tok) hjall hxdc hxdot
        apply hstep
        simp only [matchAt]
        simp [hmu2]
    · have hnotsign : ¬(c = '-' ∨ c = '+') := by
        intro h
        rcases h with h | h
        · exact hcm h
        · exact hcp h
      by_cases hcc : c = ','
      · subst hcc
        by_cases hall : ∀ x ∈ q', x = ','
        · have hall2 : ∀ x ∈ (',' :: q'), x = ',' := by
            intro x hx
            rcases List.mem_cons.mp hx with h | h
            · exact h
            · exact hall x h
          rcases htok with hcore | ⟨σ, rr, hsign, hcore, heq⟩
          · have hmu := matchUnsigned_commas_core tok (',' :: q') hcore hall2
            apply hsucc (',' :: (q' ++ tok))
            · simp only [matchAt]
              rw [if_neg hnotsign]
              rw [show (',' :: (q' ++ tok)) = (',' :: q') ++ tok from rfl]
              rw [hmu]
            · have hv := tokenToRat_commas_core tok (',' :: q') hcore hall2
              rw [show (',' :: (q' ++ tok)) = (',' :: q') ++ tok from rfl]
              exact hv
          · subst heq
            apply hstep
            have hmu := matchUnsigned_junk_none (',' :: q') σ rr hall2
              (by rcases hsign with h | h <;> subst h <;> decide)
              (by rcases hsign with h | h <;> subst h <;> decide)
            simp only [matchAt]
            rw [if_neg hnotsign]
            rw [show (',' :: (q' ++ σ :: rr)) = (',' :: q') ++ σ :: rr from
              rfl]
            exact hmu
        · obtain ⟨j, x, restq, hq'eq, hjall, hxdc, hxdot⟩ := hdec hall
          apply hstep
          have hjall2 : ∀ y ∈ (',' :: j), y = ',' := by
            intro y hy
            rcases List.mem_cons.mp hy with h | h
            · exact h
            · exact hjall y h
          have hmu := matchUnsigned_junk_none (',' :: j) x (restq ++ tok)
            hjall2 hxdc hxdot
          simp only [matchAt]
          rw [if_neg hnotsign]
          rw [show (',' :: (q' ++ tok)) = (',' :: j) ++ x :: (restq ++ tok)
            from by rw [hq'eq]; simp]
          exact hmu
      · apply hstep
        have hdc : isDC c = false := by
          simp [isDC, hcd, hcc]
        have hmu := matchUnsigned_junk_none [] c (q' ++ tok)
          (by intro y hy; cases hy) hdc hcdot
        simp only [List.nil_append] at hmu
        simp only [matchAt]
        rw [if_neg hnotsign]
        exact hmu

theorem begWith_append_self : ∀ (u z : List Char), begWith u (u ++ z) = true := by
  intro u
  induction u with
  | nil => intro z; rfl
  | cons c cs ih =>
    intro z
    show (decide (c = c) && begWith cs (cs ++ z)) = true
    simp [ih]

theorem findSub_first (u : List Char) (hu : u ≠ []) :
    ∀ (n : Nat) (l : List Char),
    (∀ i < n, begWith u (l.drop i) = false) →
    begWith u (l.drop n) = true →
    findSub u l = some n := by
  intro n
  induction n with
  | zero =>
    intro l _ hpos
    cases l with
    | nil =>
      rw [List.drop_nil] at hpos
      cases u with
      | nil => exact absurd rfl hu
      | cons c cs => cases hpos
    | cons b t =>
      rw [List.drop_zero] at hpos
      unfold findSub
      rw [if_pos hpos]
  | succ n ihn =>
    intro l hneg hpos
    cases l with
    | nil =>
      rw [List.drop_nil] at hpos
      cases u with
      | nil => exact absurd rfl hu
      | cons c cs => cases hpos
    | cons b t =>
      have h0 : begWith u ((b :: t).drop 0) = false := hneg 0 (Nat.succ_pos n)
      rw [List.drop_zero] at h0
      have hneg' : ∀ i < n, begWith u (t.drop i) = false := by
        intro i hi
        have hx := hneg (i + 1) (Nat.succ_lt_succ hi)
        rw [List.drop_succ_cons] at hx
        exact hx
      have hpos' : begWith u (t.drop n) = true := by
        have hx := hpos
        rw [List.drop_succ_cons] at hx
        exact hx
      unfold findSub
      rw [if_neg (by simp [h0]), ihn t hneg' hpos']
      rfl

theorem splitGo_ne_nil (u : List Char) : ∀ (f : Nat) (l : List Char),
    splitGo u f l ≠ [] := by
  intro f l
  cases f with
  | zero => simp [splitGo]
  | succ f =>
    show (match findSub u l with
      | Option.none => [l]
      | some n => l.take n :: splitGo u f (l.drop (n + u.length))) ≠ []
    rcases findSub u l with _ | n
    · simp
    · simp

/-- Claim C5 as amended: unit-anchored extraction holds with the following
qualifications forced by the counterexample (`c5_counterexample`): the prefix
must contain no digit and also no `'-'` or `'.'` (a trailing sign or dot is
absorbed into the matched number, changing its value), the unit must be
non-empty and its first occurrence in the string must be the one written
after the number, and the string carries no surrounding whitespace (the
parser strips it first).  Under these conditions
`parse(prefix ++ number ++ unit ++ suffix, unit) = number` for every numeric
token `number` (optional sign, optional thousands-separator commas, optional
decimal point). -/
theorem c5_unit_anchored (p tok u suf : List Char) (d : ℚ)
    (htok : NumToken tok)
    (hp : ∀ c ∈ p, c.isDigit = false ∧ c ≠ '-' ∧ c ≠ '.')
    (hsuf : ∀ c ∈ suf, c.isDigit = false)
    (hu : u ≠ [])
    (hstrip : pyStrip (p ++ tok ++ u ++ suf) = p ++ tok ++ u ++ suf)
    (hocc : ∀ i < (p ++ tok).length,
      begWith u ((p ++ tok ++ u ++ suf).drop i) = false) :
    parse_numeric_value (.vStr (p ++ tok ++ u ++ suf)) (some u) d
      = tokenToRat tok := by
  have hassoc : p ++ tok ++ u ++ suf = (p ++ tok) ++ (u ++ suf) := by
    simp [List.append_assoc]
  have hpref : begWith u ((p ++ tok ++ u ++ suf).drop (p ++ tok).length)
      = true := by
    rw [hassoc, List.drop_left]
    exact begWith_append_self u suf
  have hfs : findSub u (p ++ tok ++ u ++ suf) = some (p ++ tok).length :=
    findSub_first u hu (p ++ tok).length _ hocc hpref
  have hsplit : ∃ x xs, splitSep u (p ++ tok ++ u ++ suf)
      = (p ++ tok) :: x :: xs := by
    unfold splitSep
    rcases hlen : (p ++ tok ++ u ++ suf).length with _ | k
    · exfalso
      have hnil : p ++ tok ++ u ++ suf = [] := List.length_eq_zero.mp hlen
      have hu2 := (List.append_eq_nil.mp
        (List.append_eq_nil.mp hnil).1).2
      exact hu hu2
    · have htail := splitGo_ne_nil u k
        ((p ++ tok ++ u ++ suf).drop ((p ++ tok).length + u.length))
      rcases htl : splitGo u k ((p ++ tok ++ u ++ suf).drop
          ((p ++ tok).length + u.length)) with _ | ⟨x, xs⟩
      · exact absurd htl htail
      · refine ⟨x, xs, ?_⟩
        show (match findSub u (p ++ tok ++ u ++ suf) with
          | Option.none => [p ++ tok ++ u ++ suf]
          | some n => (p ++ tok ++ u ++ suf).take n ::
              splitGo u k ((p ++ tok ++ u ++ suf).drop (n + u.length)))
          = (p ++ tok) :: x :: xs
        rw [hfs]
        dsimp only
        rw [htl]
        rw [hassoc, List.take_left]
  obtain ⟨x, xs, hsp⟩ := hsplit
  obtain ⟨m, hm, hv⟩ := findall_token p tok htok hp
  have hseg : segScan ((p ++ tok) :: x :: xs) = some (tokenToRat tok) := by
    unfold segScan
    rw [hm]
    simp [hv]
  unfold parse_numeric_value
  dsimp only
  rw [hstrip]
  rw [if_neg hu]
  rw [hsp, hseg]

/-- Claim C5 counterexample: with prefix `"-"` (which contains no digit),
number `"5"`, unit `"元"` and empty suffix, the parser returns `-5`, not `5`:
the sign character of the prefix is absorbed into the regex match. -/
theorem c5_counterexample :
    (∀ c ∈ ("-".toList), c.isDigit = false) ∧
    NumToken ("5".toList) ∧
    ("-".toList) ++ ("5".toList) ++ ("元".toList) ++ [] = "-5元".toList ∧
    parse_numeric_value (.vStr ("-5元".toList)) (some ("元".toList)) 0
      = -5 ∧
    tokenToRat ("5".toList) = 5 ∧ ((-5 : ℚ) ≠ 5) := by
  refine ⟨by decide, Or.inl (Or.inr ⟨by decide, by decide, '5', by decide,
    by decide⟩), by decide, ?_, ?_, by norm_num⟩
  · have h : parse_numeric_value (.vStr ("-5元".toList))
        (some ("元".toList)) 0 = tokenToRat ("-5".toList) := rfl
    have h2 : tokenToRat ("-5".toList)
        = -((5 : ℚ) + (0 : ℚ) / 10 ^ 0) := rfl
    rw [h, h2]
    norm_num
  · have h2 : tokenToRat ("5".toList) = (5 : ℚ) + (0 : ℚ) / 10 ^ 0 := rfl
    rw [h2]
    norm_num

/-- Witness for `c5_unit_anchored` at prefix `"abc"`, number `"45.6"`, unit
`"元"`, suffix `"x"`: all hypotheses hold and the parser extracts `45.6`. -/
theorem c5_unit_anchored_witness :
    NumToken ("45.6".toList) ∧
    (∀ c ∈ ("abc".toList), c.isDigit = false ∧ c ≠ '-' ∧ c ≠ '.') ∧
    (∀ c ∈ ("x".toList), c.isDigit = false) ∧
    ("元".toList ≠ []) ∧
    pyStrip ("abc".toList ++ "45.6".toList ++ "元".toList ++ "x".toList)
      = "abc".toList ++ "45.6".toList ++ "元".toList ++ "x".toList ∧
    (∀ i < ("abc".toList ++ "45.6".toList).length,
      begWith ("元".toList) (("abc".toList ++ "45.6".toList ++ "元".toList
        ++ "x".toList).drop i) = false) ∧
    parse_numeric_value (.vStr ("abc".toList ++ "45.6".toList ++ "元".toList
        ++ "x".toList)) (some ("元".toList)) 0 = tokenToRat ("45.6".toList) ∧
    tokenToRat ("45.6".toList) = 45.6 := by
  have htok : NumToken ("45.6".toList) :=
    Or.inl (Or.inl ⟨['4', '5'], ['6'], by decide, by decide, by decide,
      by decide⟩)
  refine ⟨htok, by decide, by decide, by decide, by decide, by decide,
    c5_unit_anchored ("abc".toList) ("45.6".toList) ("元".toList)
      ("x".toList) 0 htok (by decide) (by decide) (by decide) (by decide)
      (by decide), ?_⟩
  have h2 : tokenToRat ("45.6".toList) = (45 : ℚ) + (6 : ℚ) / 10 ^ 1 := rfl
  rw [h2]
  norm_num
